import Mathlib

/-!
Replay detection: `service/replay.go`.

A shallow embedding of the two replay detectors of `service/replay.go`, the
generational `ReplayCache` and the time-windowed `SaltPool`, followed by the
properties settled about them.

Conventions of the embedding.

* A Go `byte` is a `Fin 256`; a Go `string` and a `[]byte` are lists of bytes.
* A `map[uint32]empty` is the finite set of its keys (a nil map reads as the
  empty set). `len` of the map is the cardinality of the set.
* A `map[[32]byte]int64` is a partial function from salts to epochs.
* A pointer receiver is an `Option`: `none` is the nil pointer.
* The mutex is not modelled: each `Add` is one atomic step on the state.
* `panic` is `Except.error`.
* The server clock `time.Now().Unix()` is an argument of `SaltPool.Add`. A reading
  is an integer; the `int64` subtraction `nowEpoch-epoch` wraps around (`wrapInt64`).
-/

namespace service

/-- A Go `byte`. -/
abbrev Byte := Fin 256

/-- `MaxCapacity` is the largest allowed size of ReplayCache (replay.go:28). -/
def MaxCapacity : Int := 20000

/-- The struct `ReplayCache` (replay.go:37-42), without its mutex. The maps are the
sets of their keys; the one write to `active` (replay.go:101) is reached only with a
capacity other than 0, and the caches of `NewReplayCache` have an allocated `active`. -/
structure ReplayCache where
  capacity : Int
  active : Finset Nat
  archive : Finset Nat
deriving DecidableEq

/-- The zero value of the struct `ReplayCache`: capacity 0 and two nil maps. -/
def ReplayCache.zero : ReplayCache := ⟨0, ∅, ∅⟩

/-- `NewReplayCache` (replay.go:46-55). `make(map[uint32]empty, capacity)` gives an
empty map for every size hint. -/
def NewReplayCache (capacity : Int) : Except String ReplayCache :=
  if capacity > MaxCapacity then
    Except.error "ReplayCache capacity would result in too many false positives"
  else
    Except.ok { capacity := capacity, active := ∅, archive := ∅ }

/-- The statement `buf[i&0x3] ^= v` of `preHash` (replay.go:73, 76). -/
def xorAt (buf : Fin 4 → Nat) (i : Nat) (v : Byte) : Fin 4 → Nat :=
  fun j => if j.val = i &&& 0x3 then buf j ^^^ v.val else buf j

/-- One loop of `preHash` (replay.go:72-74 and 75-77): the bytes of the list, the
first of them at index `i`, are folded into `buf`. -/
def xorLoop (buf : Fin 4 → Nat) (i : Nat) : List Byte → (Fin 4 → Nat)
  | [] => buf
  | v :: rest => xorLoop (xorAt buf i v) (i + 1) rest

/-- `binary.BigEndian.Uint32` of the four bytes of `buf`. -/
def bigEndianUint32 (b : Fin 4 → Nat) : Nat :=
  b 3 ||| (b 2 <<< 8) ||| (b 1 <<< 16) ||| (b 0 <<< 24)

/-- `preHash` (replay.go:70-79). -/
def preHash (id : List Byte) (salt : List Byte) : Nat :=
  let buf : Fin 4 → Nat := fun _ => 0
  let buf := xorLoop buf 0 id
  let buf := xorLoop buf 0 salt
  bigEndianUint32 buf

/-- `(*ReplayCache).Add` (replay.go:83-103): the result and the state after the call. -/
def ReplayCache.Add (c : Option ReplayCache) (id : List Byte) (salt : List Byte) :
    Bool × Option ReplayCache :=
  match c with
  | none => (true, none)
  | some c =>
    if c.capacity = 0 then
      (true, some c)
    else
      let hash := preHash id salt
      if hash ∈ c.active then
        (false, some c)
      else
        let inArchive : Bool := decide (hash ∈ c.archive)
        let c :=
          if (c.active.card : Int) = c.capacity then
            { c with archive := c.active, active := ∅ }
          else c
        (!inArchive, some { c with active := insert hash c.active })

/-- A sequence of `Add` calls, in order: the state after the last one. -/
def ReplayCache.AddSeq (c : Option ReplayCache) :
    List (List Byte × List Byte) → Option ReplayCache
  | [] => c
  | call :: rest => ReplayCache.AddSeq (ReplayCache.Add c call.1 call.2).2 rest

/-- A salt of the pool: a `[32]byte`. -/
abbrev Salt := { l : List Byte // l.length = 32 }

/-- The struct `SaltPool` (replay.go:105-108), without its mutex. The map is an
allocated one, as in the pool of `NewSaltPool`; a `SaltPool` with a nil map, on which the
insertion of replay.go:136 panics, is not a state of this type. -/
structure SaltPool where
  pool : Salt → Option Int

/-- The `int64` value of an integer result: two's complement wrap-around, with
`2 ^ 63 = 9223372036854775808` and `2 ^ 64 = 18446744073709551616`. -/
def wrapInt64 (x : Int) : Int :=
  (x + 9223372036854775808) % 18446744073709551616 - 9223372036854775808

/-- The loop "Clean the pool" of `SaltPool.Add` (replay.go:124-128): every entry for
which the `int64` difference `nowEpoch-epoch` exceeds 30 is deleted, every other entry
is left as it is. -/
def SaltPool.clean (pool : Salt → Option Int) (nowEpoch : Int) : Salt → Option Int :=
  fun salt =>
    match pool salt with
    | some epoch => if wrapInt64 (nowEpoch - epoch) > 30 then none else some epoch
    | none => none

/-- `(*SaltPool).Add` (replay.go:113-138) with the clock reading `nowEpoch`: the result
and the state after the call. -/
def SaltPool.Add (p : Option SaltPool) (salt : Salt) (nowEpoch : Int) :
    Bool × Option SaltPool :=
  match p with
  | none => (true, none)
  | some p =>
    let pool := SaltPool.clean p.pool nowEpoch
    if (pool salt).isSome then
      (false, some { pool := pool })
    else
      (true, some { pool := fun s => if s = salt then some nowEpoch else pool s })

/-- `NewSaltPool` (replay.go:140-144): a pointer to a pool with an empty map. -/
def NewSaltPool : Option SaltPool :=
  some { pool := fun _ => none }

/-- A sequence of `SaltPool.Add` calls, each with its clock reading, in order: the
state after the last one. -/
def SaltPool.AddSeq (p : Option SaltPool) : List (Salt × Int) → Option SaltPool
  | [] => p
  | call :: rest => SaltPool.AddSeq (SaltPool.Add p call.1 call.2).2 rest

/-- Lines 91-102 of `ReplayCache.Add` on the fingerprint `hash`, for a non-nil cache
that is not disabled: the result and the cache after the call. -/
def ReplayCache.addHash (c : ReplayCache) (hash : Nat) : Bool × ReplayCache :=
  if hash ∈ c.active then
    (false, c)
  else if (c.active.card : Int) = c.capacity then
    (!decide (hash ∈ c.archive), { c with archive := c.active, active := {hash} })
  else
    (!decide (hash ∈ c.archive), { c with active := insert hash c.active })

/-- The cache after `addHash` of each fingerprint of a list, in order. -/
def ReplayCache.addHashes (c : ReplayCache) : List Nat → ReplayCache
  | [] => c
  | hash :: rest => ReplayCache.addHashes (c.addHash hash).2 rest

/-- The fingerprint of a call `(id, salt)`. -/
def callHash (call : List Byte × List Byte) : Nat := preHash call.1 call.2

/-- A sequence of `Add` calls, in order: what each call returns. -/
def ReplayCache.AddResults (c : Option ReplayCache) :
    List (List Byte × List Byte) → List Bool
  | [] => []
  | call :: rest =>
    (ReplayCache.Add c call.1 call.2).1
      :: ReplayCache.AddResults (ReplayCache.Add c call.1 call.2).2 rest

/-- What `addHash` returns for each fingerprint of a list, in order. -/
def ReplayCache.addHashResults (c : ReplayCache) : List Nat → List Bool
  | [] => []
  | hash :: rest => (c.addHash hash).1 :: ReplayCache.addHashResults (c.addHash hash).2 rest

/-- The number of new fingerprints a cache can still take before it has forgotten the
fingerprint `h`: what fills the active set and rotates it, twice while `h` is in the
active set and once while `h` is in the archive only. -/
def ReplayCache.rank (c : ReplayCache) (h : Nat) : Int :=
  if h ∈ c.active then (c.capacity - c.active.card + 1) + c.capacity
  else if h ∈ c.archive then c.capacity - c.active.card + 1
  else 0

/-- Lines 123-137 of `SaltPool.Add`, for a non-nil pool: the result and the pool after
the call. -/
def SaltPool.addPool (p : SaltPool) (salt : Salt) (nowEpoch : Int) : Bool × SaltPool :=
  if (SaltPool.clean p.pool nowEpoch salt).isSome then
    (false, { pool := SaltPool.clean p.pool nowEpoch })
  else
    (true, { pool := fun s => if s = salt then some nowEpoch
                              else SaltPool.clean p.pool nowEpoch s })

/-- The pool after `addPool` of each call of a list, in order. -/
def SaltPool.addPools (p : SaltPool) : List (Salt × Int) → SaltPool
  | [] => p
  | call :: rest => SaltPool.addPools (p.addPool call.1 call.2).2 rest

/-- The pool of `NewSaltPool`. -/
def SaltPool.emptyPool : SaltPool := { pool := fun _ => none }

/-- The salt of 32 bytes `b`. -/
def constSalt (b : Byte) : Salt := ⟨List.replicate 32 b, List.length_replicate 32 b⟩

/-- Step 2 of the reference algorithm of `SaltPool.Add` (spec 4.3): the pool without
the entries whose age exceeds 30 seconds. -/
def SaltPool.sweepRef (pool : Salt → Option Int) (now : Int) : Salt → Option Int :=
  fun s => (pool s).filter (fun epoch => !decide (now - epoch > 30))

/-- Steps 2 to 4 of the reference algorithm of `SaltPool.Add` (spec 4.3): sweep; if the
salt is present return false without updating its timestamp; otherwise insert
`salt → now` and return true. -/
def SaltPool.AddRef (pool : Salt → Option Int) (salt : Salt) (now : Int) :
    Bool × (Salt → Option Int) :=
  if (SaltPool.sweepRef pool now salt).isSome then
    (false, SaltPool.sweepRef pool now)
  else
    (true, Function.update (SaltPool.sweepRef pool now) salt (some now))

/-- The exclusive-OR of the bytes of a list whose index, counted from `i`, is `j`
modulo 4. -/
def xorFold (i : Nat) : List Byte → Nat → Nat
  | [], _ => 0
  | v :: rest, j => (if i % 4 = j then v.val else 0) ^^^ xorFold (i + 1) rest j

/-- The exclusive-OR of all bytes `bs[i]` with `i mod 4 = j` (spec 4.1). -/
def xorOfResidue (bs : List Byte) (j : Nat) : Nat :=
  ((bs.enum.filter (fun p => p.1 % 4 = j)).map (fun p => p.2.val)).foldr (· ^^^ ·) 0

/-- Byte `j` of a 32-bit value in big-endian order: byte 0 is the most significant. -/
def bigEndianByte (x : Nat) (j : Fin 4) : Nat := x / 256 ^ (3 - j.val) % 256

/-! `ReplayCache.Add` on fingerprints -/

theorem ReplayCache.Add_nil (id salt : List Byte) :
    ReplayCache.Add none id salt = (true, none) := rfl

theorem ReplayCache.Add_disabled (c : ReplayCache) (h : c.capacity = 0) (id salt : List Byte) :
    ReplayCache.Add (some c) id salt = (true, some c) := by
  simp [ReplayCache.Add, h]

theorem ReplayCache.Add_enabled (c : ReplayCache) (h : c.capacity ≠ 0) (id salt : List Byte) :
    ReplayCache.Add (some c) id salt
      = ((c.addHash (preHash id salt)).1, some (c.addHash (preHash id salt)).2) := by
  unfold ReplayCache.Add ReplayCache.addHash
  simp only [h, if_false]
  by_cases hact : preHash id salt ∈ c.active
  · simp [hact]
  · by_cases hfull : (c.active.card : Int) = c.capacity
    · simp [hact, hfull]
    · simp [hact, hfull]

theorem ReplayCache.addHash_capacity (c : ReplayCache) (hash : Nat) :
    (c.addHash hash).2.capacity = c.capacity := by
  unfold ReplayCache.addHash
  split_ifs <;> rfl

theorem ReplayCache.addHashes_capacity (c : ReplayCache) (hs : List Nat) :
    (c.addHashes hs).capacity = c.capacity := by
  induction hs generalizing c with
  | nil => rfl
  | cons x rest ih => simp [ReplayCache.addHashes, ih, ReplayCache.addHash_capacity]

theorem ReplayCache.AddSeq_enabled (c : ReplayCache) (h : c.capacity ≠ 0)
    (calls : List (List Byte × List Byte)) :
    ReplayCache.AddSeq (some c) calls = some (c.addHashes (calls.map callHash)) := by
  induction calls generalizing c with
  | nil => rfl
  | cons call rest ih =>
    simp only [ReplayCache.AddSeq, List.map_cons, ReplayCache.addHashes]
    rw [ReplayCache.Add_enabled c h]
    exact ih _ (by rw [ReplayCache.addHash_capacity]; exact h)

theorem ReplayCache.AddSeq_disabled (c : ReplayCache) (h : c.capacity = 0)
    (calls : List (List Byte × List Byte)) :
    ReplayCache.AddSeq (some c) calls = some c := by
  induction calls with
  | nil => rfl
  | cons call rest ih => simp [ReplayCache.AddSeq, ReplayCache.Add_disabled c h, ih]

theorem ReplayCache.AddSeq_nil (calls : List (List Byte × List Byte)) :
    ReplayCache.AddSeq none calls = none := by
  induction calls with
  | nil => rfl
  | cons call rest ih => simp [ReplayCache.AddSeq, ReplayCache.Add_nil, ih]

theorem ReplayCache.addHashes_append (c : ReplayCache) (xs ys : List Nat) :
    c.addHashes (xs ++ ys) = (c.addHashes xs).addHashes ys := by
  induction xs generalizing c with
  | nil => rfl
  | cons x rest ih => simp [ReplayCache.addHashes, ih]

theorem ReplayCache.addHash_mem_active (c : ReplayCache) (hash : Nat) :
    hash ∈ (c.addHash hash).2.active := by
  unfold ReplayCache.addHash
  split_ifs with h1 h2
  · exact h1
  · simp
  · simp

theorem ReplayCache.addHash_result (c : ReplayCache) (hash : Nat) :
    (c.addHash hash).1 = true ↔ hash ∉ c.active ∧ hash ∉ c.archive := by
  unfold ReplayCache.addHash
  split_ifs with h1 h2
  · simp [h1]
  · simp [h1]
  · simp [h1]

theorem NewReplayCache_ok (C : Int) (h : C ≤ MaxCapacity) :
    NewReplayCache C = Except.ok ⟨C, ∅, ∅⟩ := by
  unfold NewReplayCache
  rw [if_neg (not_lt.mpr h)]

theorem SaltPool.poolAddSeq_nil (calls : List (Salt × Int)) :
    SaltPool.AddSeq none calls = none := by
  induction calls with
  | nil => rfl
  | cons call rest ih => simp [SaltPool.AddSeq, SaltPool.Add, ih]

theorem ReplayCache.addHash_of_mem (c : ReplayCache) (hash : Nat) (h : hash ∈ c.active) :
    c.addHash hash = (false, c) := by
  simp [ReplayCache.addHash, h]

theorem ReplayCache.addHashes_replicate_of_mem (c : ReplayCache) (hash : Nat)
    (h : hash ∈ c.active) (n : Nat) : c.addHashes (List.replicate n hash) = c := by
  induction n with
  | zero => rfl
  | succ n ih =>
    simp [List.replicate_succ, ReplayCache.addHashes, ReplayCache.addHash_of_mem c hash h, ih]

theorem ReplayCache.addHash_card_le (c : ReplayCache) (hash : Nat) (hcap : 1 ≤ c.capacity)
    (hle : (c.active.card : Int) ≤ c.capacity) :
    ((c.addHash hash).2.active.card : Int) ≤ c.capacity := by
  unfold ReplayCache.addHash
  split_ifs with h1 h2
  · exact hle
  · simpa using hcap
  · simp only [Finset.card_insert_of_not_mem h1]
    push_cast
    omega

theorem ReplayCache.addHashes_card_le (c : ReplayCache) (hs : List Nat) (hcap : 1 ≤ c.capacity)
    (hle : (c.active.card : Int) ≤ c.capacity) :
    ((c.addHashes hs).active.card : Int) ≤ c.capacity := by
  induction hs generalizing c with
  | nil => exact hle
  | cons x rest ih =>
    have hc := ReplayCache.addHash_capacity c x
    have := ih (c.addHash x).2 (by rw [hc]; exact hcap)
      (by rw [hc]; exact ReplayCache.addHash_card_le c x hcap hle)
    rw [hc] at this
    exact this

/-! The minimum window -/

/-- A fingerprint that is in the active set, or in the archive while the active set
holds at most `j` fingerprints, is so after one more `addHash` with `j + 1` as the
bound, as long as `j` is below the capacity. -/
theorem ReplayCache.addHash_keeps (c : ReplayCache) (h x : Nat) (j : Int)
    (hj0 : 0 ≤ j) (hj : j < c.capacity)
    (inv : h ∈ c.active ∨ (h ∈ c.archive ∧ (c.active.card : Int) ≤ j)) :
    h ∈ (c.addHash x).2.active
      ∨ (h ∈ (c.addHash x).2.archive ∧ ((c.addHash x).2.active.card : Int) ≤ j + 1) := by
  unfold ReplayCache.addHash
  split_ifs with h1 h2
  · rcases inv with hin | ⟨harch, hcard⟩
    · exact Or.inl hin
    · refine Or.inr ⟨harch, ?_⟩
      show (c.active.card : Int) ≤ j + 1
      omega
  · rcases inv with hin | ⟨_, hcard⟩
    · refine Or.inr ⟨hin, ?_⟩
      show ((({x} : Finset Nat).card : Nat) : Int) ≤ j + 1
      rw [Finset.card_singleton]
      push_cast
      omega
    · omega
  · rcases inv with hin | ⟨harch, hcard⟩
    · exact Or.inl (Finset.mem_insert_of_mem hin)
    · refine Or.inr ⟨harch, ?_⟩
      show (((insert x c.active).card : Nat) : Int) ≤ j + 1
      rw [Finset.card_insert_of_not_mem h1]
      push_cast
      omega

theorem ReplayCache.addHashes_keeps (c : ReplayCache) (h : Nat) (xs : List Nat) (j : Int)
    (hj0 : 0 ≤ j) (hj : j + (xs.length : Int) ≤ c.capacity)
    (inv : h ∈ c.active ∨ (h ∈ c.archive ∧ (c.active.card : Int) ≤ j)) :
    h ∈ (c.addHashes xs).active ∨ h ∈ (c.addHashes xs).archive := by
  induction xs generalizing c j with
  | nil =>
    rcases inv with hin | ⟨harch, _⟩
    · exact Or.inl hin
    · exact Or.inr harch
  | cons x rest ih =>
    simp only [List.length_cons, Nat.cast_add, Nat.cast_one] at hj
    simp only [ReplayCache.addHashes]
    refine ih (c.addHash x).2 (j + 1) (by omega) ?_
      (ReplayCache.addHash_keeps c h x j hj0 (by omega) inv)
    rw [ReplayCache.addHash_capacity]
    omega

/-- After `addHash h`, at most `capacity` further `addHash` calls leave `h` in the
active set or in the archive, so `addHash h` then returns false. -/
theorem ReplayCache.addHash_remembered (c : ReplayCache) (h : Nat) (xs : List Nat)
    (hlen : (xs.length : Int) ≤ c.capacity) :
    (((c.addHash h).2.addHashes xs).addHash h).1 = false := by
  have hmem := ReplayCache.addHash_mem_active c h
  have hkeep := ReplayCache.addHashes_keeps (c.addHash h).2 h xs 0 le_rfl
    (by rw [ReplayCache.addHash_capacity]; omega) (Or.inl hmem)
  cases hres : (((c.addHash h).2.addHashes xs).addHash h).1
  · rfl
  · have := (ReplayCache.addHash_result _ _).mp hres
    tauto

/-! The maximum window -/

theorem ReplayCache.AddResults_enabled (c : ReplayCache) (h : c.capacity ≠ 0)
    (calls : List (List Byte × List Byte)) :
    ReplayCache.AddResults (some c) calls = c.addHashResults (calls.map callHash) := by
  induction calls generalizing c with
  | nil => rfl
  | cons call rest ih =>
    simp only [ReplayCache.AddResults, List.map_cons, ReplayCache.addHashResults]
    rw [ReplayCache.Add_enabled c h]
    rw [ih _ (by rw [ReplayCache.addHash_capacity]; exact h)]
    rfl

/-- An admitted fingerprint other than `h` lowers the rank of `h` by one. -/
theorem ReplayCache.rank_addHash (c : ReplayCache) (h x : Nat) (n : Int) (hn : 0 ≤ n)
    (hx : x ≠ h)
    (hres : (c.addHash x).1 = true) (hrank : c.rank h ≤ n + 1) :
    (c.addHash x).2.rank h ≤ n := by
  obtain ⟨hxa, hxr⟩ := (ReplayCache.addHash_result c x).mp hres
  have hhx : h ≠ x := fun e => hx e.symm
  unfold ReplayCache.rank at hrank ⊢
  unfold ReplayCache.addHash
  rw [if_neg hxa]
  by_cases hfull : (c.active.card : Int) = c.capacity
  · rw [if_pos hfull]
    show (if h ∈ ({x} : Finset Nat) then _ else if h ∈ c.active then _ else _) ≤ n
    rw [if_neg (by simpa using hhx)]
    by_cases hact : h ∈ c.active
    · rw [if_pos hact] at hrank ⊢
      show c.capacity - ((({x} : Finset Nat).card : Nat) : Int) + 1 ≤ n
      rw [Finset.card_singleton]
      push_cast
      omega
    · rw [if_neg hact]
      exact hn
  · rw [if_neg hfull]
    show (if h ∈ insert x c.active then _ else if h ∈ c.archive then _ else _) ≤ n
    have hmem : h ∈ insert x c.active ↔ h ∈ c.active := by
      simp [Finset.mem_insert, hhx]
    have hcard : (((insert x c.active).card : Nat) : Int) = c.active.card + 1 := by
      rw [Finset.card_insert_of_not_mem hxa]
      push_cast
      rfl
    by_cases hact : h ∈ c.active
    · rw [if_pos (hmem.mpr hact)]
      rw [if_pos hact] at hrank
      show c.capacity - (((insert x c.active).card : Nat) : Int) + 1 + c.capacity ≤ n
      omega
    · rw [if_neg (fun hh => hact (hmem.mp hh))]
      rw [if_neg hact] at hrank
      by_cases harch : h ∈ c.archive
      · rw [if_pos harch] at hrank ⊢
        show c.capacity - (((insert x c.active).card : Nat) : Int) + 1 ≤ n
        omega
      · rw [if_neg harch]
        exact hn

theorem ReplayCache.rank_addHashes (c : ReplayCache) (h : Nat) (xs : List Nat)
    (hx : ∀ x ∈ xs, x ≠ h) (hres : ∀ r ∈ c.addHashResults xs, r = true)
    (hrank : c.rank h ≤ xs.length) :
    (c.addHashes xs).rank h ≤ 0 := by
  induction xs generalizing c with
  | nil => simpa using hrank
  | cons x rest ih =>
    simp only [ReplayCache.addHashResults, List.mem_cons, forall_eq_or_imp] at hres
    simp only [List.length_cons, Nat.cast_add, Nat.cast_one] at hrank
    simp only [ReplayCache.addHashes]
    refine ih (c.addHash x).2 (fun y hy => hx y (List.mem_cons_of_mem _ hy)) hres.2 ?_
    exact ReplayCache.rank_addHash c h x _ (Int.natCast_nonneg _)
      (hx x (List.mem_cons_self _ _)) hres.1 hrank

theorem ReplayCache.not_mem_of_rank_le (c : ReplayCache) (h : Nat)
    (hle : (c.active.card : Int) ≤ c.capacity) (hcap : 1 ≤ c.capacity)
    (hrank : c.rank h ≤ 0) : h ∉ c.active ∧ h ∉ c.archive := by
  unfold ReplayCache.rank at hrank
  split_ifs at hrank with h1 h2
  · omega
  · omega
  · exact ⟨h1, h2⟩

/-- In a cache whose active set is within the capacity: after `addHash h`, twice the
capacity further fingerprints, each admitted and other than `h`, make the cache forget
`h`, so `addHash h` then returns true. -/
theorem ReplayCache.addHash_forgotten (c : ReplayCache) (h : Nat) (xs : List Nat)
    (hcap : 1 ≤ c.capacity) (hle : (c.active.card : Int) ≤ c.capacity)
    (hlen : (xs.length : Int) = 2 * c.capacity) (hx : ∀ x ∈ xs, x ≠ h)
    (hres : ∀ r ∈ (c.addHash h).2.addHashResults xs, r = true) :
    (((c.addHash h).2.addHashes xs).addHash h).1 = true := by
  have hc := ReplayCache.addHash_capacity c h
  have hle1 : (((c.addHash h).2.active.card : Nat) : Int) ≤ (c.addHash h).2.capacity := by
    rw [hc]
    exact ReplayCache.addHash_card_le c h hcap hle
  have hpos : 1 ≤ (c.addHash h).2.active.card :=
    Finset.card_pos.mpr ⟨h, ReplayCache.addHash_mem_active c h⟩
  have hrank0 : (c.addHash h).2.rank h ≤ xs.length := by
    unfold ReplayCache.rank
    rw [if_pos (ReplayCache.addHash_mem_active c h), hc, hlen]
    omega
  have hfin := ReplayCache.rank_addHashes (c.addHash h).2 h xs hx hres hrank0
  have hcapf : ((c.addHash h).2.addHashes xs).capacity = c.capacity := by
    rw [ReplayCache.addHashes_capacity, hc]
  have hlef := ReplayCache.addHashes_card_le (c.addHash h).2 xs (by rw [hc]; exact hcap) hle1
  rw [hc, ← hcapf] at hlef
  exact (ReplayCache.addHash_result _ _).mpr
    (ReplayCache.not_mem_of_rank_le _ h hlef (by rw [hcapf]; exact hcap) hfin)

/-! Generations -/

/-- New fingerprints that fit in the active set are added to it, without a rotation. -/
theorem ReplayCache.addHashes_fill (c : ReplayCache) (xs : List Nat) (hnd : xs.Nodup)
    (hnew : ∀ x ∈ xs, x ∉ c.active)
    (hroom : (c.active.card : Int) + xs.length ≤ c.capacity) :
    c.addHashes xs = { c with active := c.active ∪ xs.toFinset } := by
  induction xs generalizing c with
  | nil => simp [ReplayCache.addHashes]
  | cons x rest ih =>
    have hx : x ∉ c.active := hnew x (List.mem_cons_self _ _)
    simp only [List.length_cons, Nat.cast_add, Nat.cast_one] at hroom
    have hnf : ¬ (c.active.card : Int) = c.capacity := by omega
    have hstep : (c.addHash x).2 = { c with active := insert x c.active } := by
      simp [ReplayCache.addHash, hx, hnf]
    obtain ⟨hxr, hndr⟩ := List.nodup_cons.mp hnd
    simp only [ReplayCache.addHashes, hstep]
    rw [ih _ hndr]
    · simp only [ReplayCache.mk.injEq, true_and, and_true]
      ext y
      simp only [Finset.mem_union, Finset.mem_insert, List.mem_toFinset, List.mem_cons]
      tauto
    · intro y hy
      simp only [Finset.mem_insert, not_or]
      exact ⟨fun e => hxr (e ▸ hy), hnew y (List.mem_cons_of_mem _ hy)⟩
    · show (((insert x c.active).card : Nat) : Int) + rest.length ≤ c.capacity
      rw [Finset.card_insert_of_not_mem hx]
      push_cast
      omega

/-- A new fingerprint that finds the active set full rotates the generations. -/
theorem ReplayCache.addHash_rotate (c : ReplayCache) (x : Nat) (hx : x ∉ c.active)
    (hfull : (c.active.card : Int) = c.capacity) :
    (c.addHash x).2 = { c with archive := c.active, active := {x} } := by
  simp [ReplayCache.addHash, hx, hfull]

/-- A full generation of new fingerprints, added to a cache whose active set is full,
becomes the active set and the former active set becomes the archive. -/
theorem ReplayCache.addHashes_generation (c : ReplayCache) (xs : List Nat)
    (hcap : 1 ≤ c.capacity) (hfull : (c.active.card : Int) = c.capacity) (hnd : xs.Nodup)
    (hnew : ∀ x ∈ xs, x ∉ c.active) (hlen : (xs.length : Int) = c.capacity) :
    c.addHashes xs = ⟨c.capacity, xs.toFinset, c.active⟩ := by
  cases xs with
  | nil =>
    simp only [List.length_nil, Nat.cast_zero] at hlen
    omega
  | cons x rest =>
    obtain ⟨hxr, hndr⟩ := List.nodup_cons.mp hnd
    simp only [List.length_cons, Nat.cast_add, Nat.cast_one] at hlen
    simp only [ReplayCache.addHashes]
    rw [ReplayCache.addHash_rotate c x (hnew x (List.mem_cons_self _ _)) hfull,
      ReplayCache.addHashes_fill _ rest hndr]
    · simp only [ReplayCache.mk.injEq, true_and, and_true]
      ext y
      simp only [Finset.mem_union, Finset.mem_singleton, List.mem_toFinset, List.mem_cons]
    · intro y hy
      simp only [Finset.mem_singleton]
      exact fun e => hxr (e ▸ hy)
    · show ((({x} : Finset Nat).card : Nat) : Int) + rest.length ≤ c.capacity
      rw [Finset.card_singleton]
      push_cast
      omega

/-- The cache after two generations of pairwise distinct fingerprints, from empty. -/
theorem ReplayCache.addHashes_two_generations (C : Int) (hC : 1 ≤ C) (xs ys : List Nat)
    (hx : (xs.length : Int) = C) (hy : (ys.length : Int) = C) (hnd : (xs ++ ys).Nodup) :
    (ReplayCache.mk C ∅ ∅).addHashes (xs ++ ys) = ⟨C, ys.toFinset, xs.toFinset⟩ := by
  obtain ⟨hndx, hndy, hdis⟩ := List.nodup_append.mp hnd
  rw [ReplayCache.addHashes_append, ReplayCache.addHashes_fill _ xs hndx (by simp)
    (by simpa using hx.le)]
  rw [ReplayCache.addHashes_generation _ ys hC
    (by simpa [List.toFinset_card_of_nodup hndx] using hx) hndy
    (by
      intro y hyy hmem
      simp only [Finset.empty_union, List.mem_toFinset] at hmem
      exact hdis hmem hyy)
    hy]
  simp

/-- The cache after three generations of pairwise distinct fingerprints, from empty. -/
theorem ReplayCache.addHashes_three_generations (C : Int) (hC : 1 ≤ C) (xs ys zs : List Nat)
    (hx : (xs.length : Int) = C) (hy : (ys.length : Int) = C) (hz : (zs.length : Int) = C)
    (hnd : (xs ++ ys ++ zs).Nodup) :
    (ReplayCache.mk C ∅ ∅).addHashes (xs ++ ys ++ zs) = ⟨C, zs.toFinset, ys.toFinset⟩ := by
  obtain ⟨hndxy, hndz, hdis⟩ := List.nodup_append.mp hnd
  obtain ⟨_, hndy, _⟩ := List.nodup_append.mp hndxy
  rw [ReplayCache.addHashes_append, ReplayCache.addHashes_two_generations C hC xs ys hx hy hndxy,
    ReplayCache.addHashes_generation _ zs hC
      (by simpa [List.toFinset_card_of_nodup hndy] using hy) hndz
      (by
        intro z hzz hmem
        simp only [List.mem_toFinset] at hmem
        exact hdis (List.mem_append_right _ hmem) hzz)
      hz]

/-! `SaltPool.Add` on pools -/

theorem SaltPool.Add_some (p : SaltPool) (salt : Salt) (nowEpoch : Int) :
    SaltPool.Add (some p) salt nowEpoch
      = ((p.addPool salt nowEpoch).1, some (p.addPool salt nowEpoch).2) := by
  unfold SaltPool.Add SaltPool.addPool
  by_cases h : (SaltPool.clean p.pool nowEpoch salt).isSome = true
  · simp [h]
  · simp [h]

theorem SaltPool.poolAddSeq_some (p : SaltPool) (calls : List (Salt × Int)) :
    SaltPool.AddSeq (some p) calls = some (p.addPools calls) := by
  induction calls generalizing p with
  | nil => rfl
  | cons call rest ih =>
    simp only [SaltPool.AddSeq, SaltPool.addPools]
    rw [SaltPool.Add_some]
    exact ih _

theorem SaltPool.addPools_append (p : SaltPool) (xs ys : List (Salt × Int)) :
    p.addPools (xs ++ ys) = (p.addPools xs).addPools ys := by
  induction xs generalizing p with
  | nil => rfl
  | cons x rest ih => simp [SaltPool.addPools, ih]

/-- A difference within the `int64` range is not changed by the wrap-around. -/
theorem wrapInt64_of_fits (x : Int) (h1 : -9223372036854775808 ≤ x)
    (h2 : x < 9223372036854775808) : wrapInt64 x = x := by
  unfold wrapInt64
  omega

/-- Two readings whose differences, either way, are below `2 ^ 63`: the `int64`
difference is the difference. -/
theorem wrapInt64_sub (a b : Int) (hab : a - b < 9223372036854775808)
    (hba : b - a < 9223372036854775808) : wrapInt64 (a - b) = a - b :=
  wrapInt64_of_fits _ (by omega) hab

theorem SaltPool.clean_eq_some (pool : Salt → Option Int) (now : Int) (s : Salt) (e : Int) :
    SaltPool.clean pool now s = some e ↔ pool s = some e ∧ wrapInt64 (now - e) ≤ 30 := by
  unfold SaltPool.clean
  cases hp : pool s with
  | none => simp
  | some e0 =>
    by_cases hage : wrapInt64 (now - e0) > 30
    · simp only [hage, if_true, Option.some.injEq]
      constructor
      · intro h
        cases h
      · rintro ⟨rfl, hle⟩
        omega
    · simp only [hage, if_false, Option.some.injEq]
      constructor
      · rintro rfl
        exact ⟨rfl, by omega⟩
      · rintro ⟨rfl, _⟩
        rfl

/-- The call returns false exactly when the salt has an entry of age at most 30. -/
theorem SaltPool.addPool_false_iff (p : SaltPool) (s : Salt) (t : Int) :
    (p.addPool s t).1 = false ↔ ∃ e, p.pool s = some e ∧ wrapInt64 (t - e) ≤ 30 := by
  unfold SaltPool.addPool
  by_cases h : (SaltPool.clean p.pool t s).isSome = true
  · rw [if_pos h]
    obtain ⟨e, he⟩ := Option.isSome_iff_exists.mp h
    exact ⟨fun _ => ⟨e, (SaltPool.clean_eq_some _ _ _ _).mp he⟩, fun _ => rfl⟩
  · rw [if_neg h]
    constructor
    · intro hf
      cases hf
    · rintro ⟨e, he⟩
      exact absurd (Option.isSome_iff_exists.mpr ⟨e, (SaltPool.clean_eq_some _ _ _ _).mpr he⟩) h

/-- A call that returns true records the salt at the clock reading of the call. -/
theorem SaltPool.addPool_records (p : SaltPool) (s : Salt) (t : Int)
    (h : (p.addPool s t).1 = true) : (p.addPool s t).2.pool s = some t := by
  unfold SaltPool.addPool at h ⊢
  by_cases hs : (SaltPool.clean p.pool t s).isSome = true
  · rw [if_pos hs] at h
    cases h
  · rw [if_neg hs]
    simp

/-- An entry of age at most 30 at the call is kept as it is. -/
theorem SaltPool.addPool_keeps (p : SaltPool) (s : Salt) (e : Int) (s1 : Salt) (t1 : Int)
    (h : p.pool s = some e) (hage : wrapInt64 (t1 - e) ≤ 30) :
    (p.addPool s1 t1).2.pool s = some e := by
  have hc : SaltPool.clean p.pool t1 s = some e := (SaltPool.clean_eq_some _ _ _ _).mpr ⟨h, hage⟩
  unfold SaltPool.addPool
  by_cases hs : (SaltPool.clean p.pool t1 s1).isSome = true
  · rw [if_pos hs]
    exact hc
  · rw [if_neg hs]
    have hne : s ≠ s1 := by
      rintro rfl
      rw [hc] at hs
      exact hs rfl
    simp [hne, hc]

theorem SaltPool.addPools_keeps (p : SaltPool) (s : Salt) (e : Int) (calls : List (Salt × Int))
    (h : p.pool s = some e) (hage : ∀ call ∈ calls, wrapInt64 (call.2 - e) ≤ 30) :
    (p.addPools calls).pool s = some e := by
  induction calls generalizing p with
  | nil => exact h
  | cons call rest ih =>
    simp only [SaltPool.addPools]
    exact ih _ (SaltPool.addPool_keeps p s e call.1 call.2 h (hage call (List.mem_cons_self _ _)))
      (fun c hc => hage c (List.mem_cons_of_mem _ hc))

/-- An entry after a call was there before the call, or the call has recorded it. -/
theorem SaltPool.addPool_origin (p : SaltPool) (s : Salt) (e : Int) (s1 : Salt) (t1 : Int)
    (h : (p.addPool s1 t1).2.pool s = some e) :
    p.pool s = some e ∨ (s1 = s ∧ t1 = e ∧ (p.addPool s1 t1).1 = true) := by
  unfold SaltPool.addPool at h ⊢
  by_cases hs : (SaltPool.clean p.pool t1 s1).isSome = true
  · rw [if_pos hs] at h
    exact Or.inl ((SaltPool.clean_eq_some _ _ _ _).mp h).1
  · rw [if_neg hs] at h ⊢
    by_cases hss : s = s1
    · subst hss
      simp only [if_true, Option.some.injEq] at h
      exact Or.inr ⟨rfl, h, rfl⟩
    · simp only [hss, if_false] at h
      exact Or.inl ((SaltPool.clean_eq_some _ _ _ _).mp h).1

theorem SaltPool.addPools_origin (p : SaltPool) (s : Salt) (e : Int) (calls : List (Salt × Int))
    (h : (p.addPools calls).pool s = some e) :
    p.pool s = some e
      ∨ ∃ pre1 pre2, calls = pre1 ++ (s, e) :: pre2
          ∧ ((p.addPools pre1).addPool s e).1 = true := by
  induction calls generalizing p with
  | nil => exact Or.inl h
  | cons call rest ih =>
    simp only [SaltPool.addPools] at h
    rcases ih _ h with hprev | ⟨pre1, pre2, hsplit, hres⟩
    · rcases SaltPool.addPool_origin p s e call.1 call.2 hprev with hp | ⟨h1, h2, h3⟩
      · exact Or.inl hp
      · refine Or.inr ⟨[], rest, ?_, ?_⟩
        · rw [List.nil_append, ← h1, ← h2]
        · rw [← h1, ← h2]
          exact h3
    · exact Or.inr ⟨call :: pre1, pre2, by rw [hsplit]; rfl, hres⟩

/-- A call for another salt leaves the entry of `s` as it is, or deletes it. -/
theorem SaltPool.addPool_other (p : SaltPool) (s : Salt) (t : Int) (s1 : Salt) (t1 : Int)
    (hne : s1 ≠ s) (h : p.pool s = some t ∨ p.pool s = none) :
    (p.addPool s1 t1).2.pool s = some t ∨ (p.addPool s1 t1).2.pool s = none := by
  have hc : SaltPool.clean p.pool t1 s = some t ∨ SaltPool.clean p.pool t1 s = none := by
    unfold SaltPool.clean
    rcases h with h | h
    · rw [h]
      by_cases hage : wrapInt64 (t1 - t) > 30
      · simp [hage]
      · simp [hage]
    · rw [h]
      exact Or.inr rfl
  have hne2 : s ≠ s1 := fun e => hne e.symm
  unfold SaltPool.addPool
  by_cases hs : (SaltPool.clean p.pool t1 s1).isSome = true
  · rw [if_pos hs]
    exact hc
  · rw [if_neg hs]
    simpa [hne2] using hc

theorem SaltPool.addPools_other (p : SaltPool) (s : Salt) (t : Int) (calls : List (Salt × Int))
    (hne : ∀ call ∈ calls, call.1 ≠ s) (h : p.pool s = some t ∨ p.pool s = none) :
    (p.addPools calls).pool s = some t ∨ (p.addPools calls).pool s = none := by
  induction calls generalizing p with
  | nil => exact h
  | cons call rest ih =>
    simp only [SaltPool.addPools]
    exact ih _ (fun c hc => hne c (List.mem_cons_of_mem _ hc))
      (SaltPool.addPool_other p s t call.1 call.2 (hne call (List.mem_cons_self _ _)) h)

/-- In a history of non-decreasing clock readings every reading is at most the last. -/
theorem readings_le_last (calls : List (Salt × Int)) (s : Salt) (t : Int)
    (hmono : List.Chain' (· ≤ ·) ((calls ++ [(s, t)]).map Prod.snd)) :
    ∀ call ∈ calls, call.2 ≤ t := by
  intro call hcall
  have hp := List.chain'_iff_pairwise.mp hmono
  rw [List.map_append, List.pairwise_append] at hp
  exact hp.2.2 call.2 (List.mem_map_of_mem _ hcall) t (by simp)

/-! The archive -/

/-- The archive is empty or a full generation, before and after `addHash`. -/
theorem ReplayCache.addHash_archive (c : ReplayCache) (x : Nat)
    (inv : c.archive = ∅ ∨ (c.archive.card : Int) = c.capacity) :
    (c.addHash x).2.archive = ∅ ∨ ((c.addHash x).2.archive.card : Int) = c.capacity := by
  unfold ReplayCache.addHash
  split_ifs with h1 h2
  · exact inv
  · exact Or.inr h2
  · exact inv

theorem ReplayCache.addHashes_archive (c : ReplayCache) (xs : List Nat)
    (inv : c.archive = ∅ ∨ (c.archive.card : Int) = c.capacity) :
    (c.addHashes xs).archive = ∅ ∨ ((c.addHashes xs).archive.card : Int) = c.capacity := by
  induction xs generalizing c with
  | nil => exact inv
  | cons x rest ih =>
    have hc := ReplayCache.addHash_capacity c x
    have := ih (c.addHash x).2 (by rw [hc]; exact ReplayCache.addHash_archive c x inv)
    rw [hc] at this
    exact this

/-- After a call every entry has an age of at most 30. -/
theorem SaltPool.addPool_age (p : SaltPool) (s : Salt) (e : Int) (s1 : Salt) (t1 : Int)
    (h : (p.addPool s1 t1).2.pool s = some e) : wrapInt64 (t1 - e) ≤ 30 := by
  unfold SaltPool.addPool at h
  by_cases hs : (SaltPool.clean p.pool t1 s1).isSome = true
  · rw [if_pos hs] at h
    exact ((SaltPool.clean_eq_some _ _ _ _).mp h).2
  · rw [if_neg hs] at h
    by_cases hss : s = s1
    · subst hss
      simp only [if_true, Option.some.injEq] at h
      rw [← h, sub_self]
      decide
    · simp only [hss, if_false] at h
      exact ((SaltPool.clean_eq_some _ _ _ _).mp h).2

/-- Where no `int64` difference of the sweep overflows, the sweep of the code is the
sweep of the reference algorithm. -/
theorem SaltPool.sweepRef_eq_clean (pool : Salt → Option Int) (now : Int)
    (hfit : ∀ s e, pool s = some e →
      -9223372036854775808 ≤ now - e ∧ now - e < 9223372036854775808) :
    SaltPool.sweepRef pool now = SaltPool.clean pool now := by
  funext s
  unfold SaltPool.sweepRef SaltPool.clean
  cases hp : pool s with
  | none => rfl
  | some e =>
    have hw : wrapInt64 (now - e) = now - e :=
      wrapInt64_of_fits _ (hfit s e hp).1 (hfit s e hp).2
    show Option.filter _ (some e) = (if wrapInt64 (now - e) > 30 then none else some e)
    rw [hw]
    by_cases hage : now - e > 30
    · simp [Option.filter, hage]
    · simp [Option.filter, hage]

/-- In a history whose readings differ by less than `2 ^ 63`, the `int64` difference
of two readings is their difference. -/
theorem readings_wrap (calls : List (Salt × Int))
    (hfit : ∀ a ∈ calls.map Prod.snd, ∀ b ∈ calls.map Prod.snd,
      a - b < 9223372036854775808)
    (x y : Salt × Int) (hx : x ∈ calls) (hy : y ∈ calls) :
    wrapInt64 (x.2 - y.2) = x.2 - y.2 :=
  wrapInt64_sub _ _
    (hfit _ (List.mem_map_of_mem _ hx) _ (List.mem_map_of_mem _ hy))
    (hfit _ (List.mem_map_of_mem _ hy) _ (List.mem_map_of_mem _ hx))

/-! Sequences without a rotation -/

/-- While no number of fingerprints below the number of distinct ones at the end is
the capacity, the active set is never found full by a new fingerprint: every
fingerprint is added to the active set and the archive stays as it is. -/
theorem ReplayCache.addHashes_no_rotation (c : ReplayCache) (hs : List Nat)
    (hno : ∀ n : Nat, n < (c.active ∪ hs.toFinset).card → (n : Int) ≠ c.capacity) :
    c.addHashes hs = { c with active := c.active ∪ hs.toFinset } := by
  induction hs generalizing c with
  | nil => simp [ReplayCache.addHashes]
  | cons x rest ih =>
    simp only [ReplayCache.addHashes]
    by_cases hx : x ∈ c.active
    · have hun : c.active ∪ (x :: rest).toFinset = c.active ∪ rest.toFinset := by
        ext y
        simp only [Finset.mem_union, List.mem_toFinset, List.mem_cons]
        constructor
        · rintro (h | rfl | h)
          · exact Or.inl h
          · exact Or.inl hx
          · exact Or.inr h
        · rintro (h | h)
          · exact Or.inl h
          · exact Or.inr (Or.inr h)
      rw [ReplayCache.addHash_of_mem c x hx, ih c (by rw [← hun]; exact hno), hun]
    · have hlt : c.active.card < (c.active ∪ (x :: rest).toFinset).card := by
        apply Finset.card_lt_card
        refine ⟨Finset.subset_union_left, fun hsub => hx ?_⟩
        exact hsub (Finset.mem_union_right _ (by simp))
      have hnf : ¬ (c.active.card : Int) = c.capacity := hno _ hlt
      have hstep : (c.addHash x).2 = { c with active := insert x c.active } := by
        simp [ReplayCache.addHash, hx, hnf]
      have hun : insert x c.active ∪ rest.toFinset = c.active ∪ (x :: rest).toFinset := by
        ext y
        simp only [Finset.mem_union, Finset.mem_insert, List.mem_toFinset, List.mem_cons]
        tauto
      rw [hstep, ih _ (by
        show ∀ n : Nat, n < (insert x c.active ∪ rest.toFinset).card → (n : Int) ≠ c.capacity
        rw [hun]
        exact hno)]
      show ReplayCache.mk c.capacity (insert x c.active ∪ rest.toFinset) c.archive = _
      rw [hun]

/-- Without a rotation and with an empty archive, the calls that return true are as
many as the distinct fingerprints that were not in the active set. -/
theorem ReplayCache.addHashResults_count (c : ReplayCache) (hs : List Nat)
    (harch : c.archive = ∅)
    (hno : ∀ n : Nat, n < (c.active ∪ hs.toFinset).card → (n : Int) ≠ c.capacity) :
    (c.addHashResults hs).count true = (hs.toFinset \ c.active).card := by
  induction hs generalizing c with
  | nil => simp [ReplayCache.addHashResults]
  | cons x rest ih =>
    simp only [ReplayCache.addHashResults]
    by_cases hx : x ∈ c.active
    · have hun : c.active ∪ (x :: rest).toFinset = c.active ∪ rest.toFinset := by
        ext y
        simp only [Finset.mem_union, List.mem_toFinset, List.mem_cons]
        constructor
        · rintro (h | rfl | h)
          · exact Or.inl h
          · exact Or.inl hx
          · exact Or.inr h
        · rintro (h | h)
          · exact Or.inl h
          · exact Or.inr (Or.inr h)
      rw [ReplayCache.addHash_of_mem c x hx]
      show List.count true (false :: c.addHashResults rest) = _
      rw [List.count_cons_of_ne (by decide : true ≠ false),
        ih c harch (by rw [← hun]; exact hno)]
      congr 1
      ext y
      simp only [Finset.mem_sdiff, List.mem_toFinset, List.mem_cons]
      constructor
      · rintro ⟨h, hn⟩
        exact ⟨Or.inr h, hn⟩
      · rintro ⟨rfl | h, hn⟩
        · exact absurd hx hn
        · exact ⟨h, hn⟩
    · have hlt : c.active.card < (c.active ∪ (x :: rest).toFinset).card := by
        apply Finset.card_lt_card
        refine ⟨Finset.subset_union_left, fun hsub => hx ?_⟩
        exact hsub (Finset.mem_union_right _ (by simp))
      have hnf : ¬ (c.active.card : Int) = c.capacity := hno _ hlt
      have hstep : c.addHash x = (true, { c with active := insert x c.active }) := by
        simp [ReplayCache.addHash, hx, hnf, harch]
      have hun : insert x c.active ∪ rest.toFinset = c.active ∪ (x :: rest).toFinset := by
        ext y
        simp only [Finset.mem_union, Finset.mem_insert, List.mem_toFinset, List.mem_cons]
        tauto
      rw [hstep]
      show List.count true (true :: ReplayCache.addHashResults
        ⟨c.capacity, insert x c.active, c.archive⟩ rest) = _
      rw [List.count_cons_self, ih ⟨c.capacity, insert x c.active, c.archive⟩ harch (by
        show ∀ n : Nat, n < (insert x c.active ∪ rest.toFinset).card → (n : Int) ≠ c.capacity
        rw [hun]
        exact hno)]
      show (rest.toFinset \ insert x c.active).card + 1 = _
      have hset : (x :: rest).toFinset \ c.active
          = insert x (rest.toFinset \ insert x c.active) := by
        ext y
        simp only [Finset.mem_sdiff, Finset.mem_insert, List.mem_toFinset, List.mem_cons,
          not_or]
        constructor
        · rintro ⟨rfl | h, hn⟩
          · exact Or.inl rfl
          · by_cases hyx : y = x
            · exact Or.inl hyx
            · exact Or.inr ⟨h, hyx, hn⟩
        · rintro (rfl | ⟨h, _, hn⟩)
          · exact ⟨Or.inl rfl, hx⟩
          · exact ⟨Or.inr h, hn⟩
      rw [hset, Finset.card_insert_of_not_mem]
      simp

/-- From the empty cache, without a rotation: the state after a sequence of calls, what
a call after a prefix returns, and the number of calls that return true. -/
theorem ReplayCache.once_of_no_rotation (C : Int) (hC : C ≠ 0)
    (calls : List (List Byte × List Byte))
    (hno : ∀ n : Nat, n < ((calls.map callHash).toFinset).card → (n : Int) ≠ C) :
    ReplayCache.AddSeq (some ⟨C, ∅, ∅⟩) calls = some ⟨C, (calls.map callHash).toFinset, ∅⟩
      ∧ (∀ pre call post, calls = pre ++ call :: post →
          (ReplayCache.Add (ReplayCache.AddSeq (some ⟨C, ∅, ∅⟩) pre) call.1 call.2).1
            = decide (callHash call ∉ pre.map callHash))
      ∧ (ReplayCache.AddResults (some ⟨C, ∅, ∅⟩) calls).count true
          = ((calls.map callHash).toFinset).card := by
  have hne : (ReplayCache.mk C ∅ ∅).capacity ≠ 0 := hC
  refine ⟨?_, ?_, ?_⟩
  · rw [ReplayCache.AddSeq_enabled _ hne, ReplayCache.addHashes_no_rotation _ _
      (by simpa using hno)]
    simp
  · intro pre call post hsplit
    have hsub : (pre.map callHash).toFinset ⊆ (calls.map callHash).toFinset := by
      intro y hy
      rw [hsplit, List.map_append]
      simp only [List.mem_toFinset, List.mem_append] at hy ⊢
      exact Or.inl hy
    have hnopre : ∀ n : Nat, n < ((ReplayCache.mk C ∅ ∅).active
        ∪ (pre.map callHash).toFinset).card → (n : Int) ≠ (ReplayCache.mk C ∅ ∅).capacity := by
      intro n hn
      refine hno n (lt_of_lt_of_le hn ?_)
      simpa using Finset.card_le_card hsub
    rw [ReplayCache.AddSeq_enabled _ hne, ReplayCache.addHashes_no_rotation _ _ hnopre,
      ReplayCache.Add_enabled _ (by exact hC)]
    apply Bool.eq_iff_iff.mpr
    rw [ReplayCache.addHash_result]
    simp [callHash]
  · rw [ReplayCache.AddResults_enabled _ hne, ReplayCache.addHashResults_count _ _ rfl
      (by simpa using hno)]
    simp

/-! The fingerprint -/

theorem xorLoop_apply (buf : Fin 4 → Nat) (i : Nat) (bs : List Byte) (j : Fin 4) :
    xorLoop buf i bs j = buf j ^^^ xorFold i bs j.val := by
  induction bs generalizing buf i with
  | nil => simp [xorLoop, xorFold]
  | cons v rest ih =>
    simp only [xorLoop, xorFold]
    rw [ih]
    have hand : i &&& 0x3 = i % 4 := Nat.and_pow_two_sub_one_eq_mod i 2
    unfold xorAt
    rw [hand]
    by_cases h : j.val = i % 4
    · rw [if_pos h, if_pos h.symm, Nat.xor_assoc]
    · rw [if_neg h, if_neg (fun e => h e.symm), Nat.zero_xor]

theorem xorFold_lt (i : Nat) (bs : List Byte) (j : Nat) : xorFold i bs j < 256 := by
  induction bs generalizing i with
  | nil => simp [xorFold]
  | cons v rest ih =>
    simp only [xorFold]
    have h1 : (if i % 4 = j then v.val else 0) < 2 ^ 8 := by
      split_ifs
      · exact v.isLt
      · norm_num
    exact Nat.xor_lt_two_pow h1 (ih (i + 1))

theorem xorFold_eq_residue_from (i : Nat) (bs : List Byte) (j : Nat) :
    xorFold i bs j
      = (((bs.enumFrom i).filter (fun p => p.1 % 4 = j)).map (fun p => p.2.val)).foldr
          (· ^^^ ·) 0 := by
  induction bs generalizing i with
  | nil => simp [xorFold]
  | cons v rest ih =>
    simp only [xorFold, List.enumFrom_cons]
    rw [ih (i + 1)]
    by_cases h : i % 4 = j
    · simp [List.filter_cons, h]
    · simp [List.filter_cons, h]

theorem xorFold_eq_residue (bs : List Byte) (j : Nat) : xorFold 0 bs j = xorOfResidue bs j :=
  xorFold_eq_residue_from 0 bs j

theorem or_shiftLeft_eq (x y k : Nat) (hx : x < 2 ^ k) : x ||| (y <<< k) = 2 ^ k * y + x := by
  rw [Nat.shiftLeft_eq, Nat.mul_comm, Nat.or_comm, ← Nat.mul_add_lt_is_or hx]

theorem bigEndianUint32_eq (b : Fin 4 → Nat) (hb : ∀ j, b j < 256) :
    bigEndianUint32 b = 16777216 * b 0 + 65536 * b 1 + 256 * b 2 + b 3 := by
  have h0 := hb 0
  have h1 := hb 1
  have h2 := hb 2
  have h3 := hb 3
  unfold bigEndianUint32
  rw [or_shiftLeft_eq (b 3) (b 2) 8 (by norm_num; exact h3)]
  rw [or_shiftLeft_eq _ (b 1) 16 (by norm_num; omega)]
  rw [or_shiftLeft_eq _ (b 0) 24 (by norm_num; omega)]
  norm_num
  omega

theorem bigEndianByte_bigEndianUint32 (b : Fin 4 → Nat) (hb : ∀ j, b j < 256) (j : Fin 4) :
    bigEndianByte (bigEndianUint32 b) j = b j := by
  have h0 := hb 0
  have h1 := hb 1
  have h2 := hb 2
  have h3 := hb 3
  rw [bigEndianUint32_eq b hb]
  unfold bigEndianByte
  fin_cases j
  · show (16777216 * b 0 + 65536 * b 1 + 256 * b 2 + b 3) / 256 ^ 3 % 256 = b 0
    norm_num
    omega
  · show (16777216 * b 0 + 65536 * b 1 + 256 * b 2 + b 3) / 256 ^ 2 % 256 = b 1
    norm_num
    omega
  · show (16777216 * b 0 + 65536 * b 1 + 256 * b 2 + b 3) / 256 ^ 1 % 256 = b 2
    norm_num
    omega
  · show (16777216 * b 0 + 65536 * b 1 + 256 * b 2 + b 3) / 256 ^ 0 % 256 = b 3
    norm_num
    omega

/-- The accumulator of `preHash` after the two loops. -/
theorem preHash_eq (id salt : List Byte) :
    preHash id salt
      = bigEndianUint32 (fun j => xorFold 0 id j.val ^^^ xorFold 0 salt j.val) := by
  show bigEndianUint32 (xorLoop (xorLoop (fun _ => 0) 0 id) 0 salt) = _
  congr 1
  funext j
  rw [xorLoop_apply, xorLoop_apply, Nat.zero_xor]

theorem preHash_buf_lt (id salt : List Byte) (j : Fin 4) :
    xorFold 0 id j.val ^^^ xorFold 0 salt j.val < 256 :=
  Nat.xor_lt_two_pow (n := 8) (xorFold_lt 0 id j.val) (xorFold_lt 0 salt j.val)

theorem preHash_byte (id salt : List Byte) (j : Fin 4) :
    bigEndianByte (preHash id salt) j = xorFold 0 id j.val ^^^ xorFold 0 salt j.val := by
  rw [preHash_eq]
  exact bigEndianByte_bigEndianUint32 _ (preHash_buf_lt id salt) j

theorem bigEndianUint32_lt (b : Fin 4 → Nat) (hb : ∀ j, b j < 256) :
    bigEndianUint32 b < 2 ^ 32 := by
  have h0 := hb 0
  have h1 := hb 1
  have h2 := hb 2
  have h3 := hb 3
  rw [bigEndianUint32_eq b hb]
  norm_num
  omega

theorem preHash_lt (id salt : List Byte) : preHash id salt < 2 ^ 32 := by
  rw [preHash_eq]
  exact bigEndianUint32_lt _ (preHash_buf_lt id salt)

/-- The fold of a list with one byte replaced. -/
theorem xorFold_set (i : Nat) (bs : List Byte) (j k : Nat) (hk : k < bs.length) (b : Byte) :
    xorFold i (bs.set k b) j
      = xorFold i bs j ^^^ (if (i + k) % 4 = j then (bs.get ⟨k, hk⟩).val ^^^ b.val else 0) := by
  induction bs generalizing i k with
  | nil => simp at hk
  | cons v rest ih =>
    cases k with
    | zero =>
      simp only [List.set_cons_zero, xorFold, Nat.add_zero]
      have hget : (v :: rest).get ⟨0, hk⟩ = v := rfl
      rw [hget]
      by_cases h : i % 4 = j
      · simp only [h, if_true]
        have : (v.val ^^^ xorFold (i + 1) rest j) ^^^ (v.val ^^^ b.val)
            = (v.val ^^^ v.val) ^^^ (b.val ^^^ xorFold (i + 1) rest j) := by ac_rfl
        rw [this, Nat.xor_self, Nat.zero_xor]
      · simp only [h, if_false, Nat.xor_zero]
    | succ k =>
      simp only [List.set_cons_succ, xorFold]
      have hget : (v :: rest).get ⟨k + 1, hk⟩ = rest.get ⟨k, by simpa using hk⟩ := rfl
      rw [hget]
      rw [ih (i + 1) k (by simpa using hk), Nat.xor_assoc]
      have : i + 1 + k = i + (k + 1) := by omega
      rw [this]

theorem or_shiftLeft_xor (x y x1 y1 k : Nat) (hx : x < 2 ^ k) (hx1 : x1 < 2 ^ k) :
    (x ||| (y <<< k)) ^^^ (x1 ||| (y1 <<< k)) = (x ^^^ x1) ||| ((y ^^^ y1) <<< k) := by
  apply Nat.eq_of_testBit_eq
  intro i
  simp only [Nat.testBit_xor, Nat.testBit_or, Nat.testBit_shiftLeft]
  by_cases h : k ≤ i
  · have hp : 2 ^ k ≤ 2 ^ i := Nat.pow_le_pow_right (by norm_num) h
    have e1 : x.testBit i = false := Nat.testBit_lt_two_pow (lt_of_lt_of_le hx hp)
    have e2 : x1.testBit i = false := Nat.testBit_lt_two_pow (lt_of_lt_of_le hx1 hp)
    simp [h, e1, e2]
  · simp [h]

theorem bigEndianUint32_xor (a b : Fin 4 → Nat) (ha : ∀ j, a j < 256) (hb : ∀ j, b j < 256) :
    bigEndianUint32 (fun j => a j ^^^ b j) = bigEndianUint32 a ^^^ bigEndianUint32 b := by
  have a2 := ha 2
  have a3 := ha 3
  have a1 := ha 1
  have b1 := hb 1
  have b2 := hb 2
  have b3 := hb 3
  have s1 : ∀ x y : Nat, x < 256 → y < 256 → x ||| (y <<< 8) < 2 ^ 16 := by
    intro x y hx hy
    rw [or_shiftLeft_eq x y 8 (by norm_num; exact hx)]
    norm_num
    omega
  have s2 : ∀ x y : Nat, x < 2 ^ 16 → y < 256 → x ||| (y <<< 16) < 2 ^ 24 := by
    intro x y hx hy
    rw [or_shiftLeft_eq x y 16 hx]
    norm_num at hx ⊢
    omega
  unfold bigEndianUint32
  rw [or_shiftLeft_xor _ _ _ _ 24 (s2 _ _ (s1 _ _ a3 a2) a1) (s2 _ _ (s1 _ _ b3 b2) b1),
    or_shiftLeft_xor _ _ _ _ 16 (s1 _ _ a3 a2) (s1 _ _ b3 b2),
    or_shiftLeft_xor _ _ _ _ 8 (by norm_num; exact a3) (by norm_num; exact b3)]

theorem preHash_left (id : List Byte) :
    preHash id [] = bigEndianUint32 (fun j => xorFold 0 id j.val) := by
  rw [preHash_eq]
  simp [xorFold]

theorem preHash_right (salt : List Byte) :
    preHash [] salt = bigEndianUint32 (fun j => xorFold 0 salt j.val) := by
  rw [preHash_eq]
  simp [xorFold]

theorem preHash_xor (id salt : List Byte) :
    preHash id salt = preHash id [] ^^^ preHash [] salt := by
  rw [preHash_left, preHash_right, preHash_eq]
  exact bigEndianUint32_xor _ _ (fun j => xorFold_lt 0 id j.val) (fun j => xorFold_lt 0 salt j.val)

/-- The wrap-around at work: with an entry recorded at the least `int64` value, the
difference at the reading 946684800 wraps to a negative value, the sweep keeps the
entry and `Add` of its salt returns false. -/
theorem SaltPool.Add_wraps_at_least_epoch :
    wrapInt64 (946684800 - (-9223372036854775808)) = -9223372035908091008
      ∧ (SaltPool.Add
          (some ⟨fun s => if s = constSalt 0 then some (-9223372036854775808) else none⟩)
          (constSalt 0) 946684800).1 = false :=
  ⟨by decide, by decide⟩

/-! The claims -/

/-- C1: on an enabled cache (capacity at least 1) in any state, `Add(id, salt)` returns
true exactly when the fingerprint `preHash(id, salt)` is in neither the active set nor
the archive before the call; it returns false when the fingerprint is in either. -/
theorem C1_Add_true_iff_unseen (c : ReplayCache) (hcap : 1 ≤ c.capacity)
    (id salt : List Byte) :
    ((ReplayCache.Add (some c) id salt).1 = true
        ↔ preHash id salt ∉ c.active ∧ preHash id salt ∉ c.archive)
      ∧ (preHash id salt ∈ c.active ∨ preHash id salt ∈ c.archive
        → (ReplayCache.Add (some c) id salt).1 = false) := by
  have hne : c.capacity ≠ 0 := by omega
  rw [ReplayCache.Add_enabled c hne]
  have key := ReplayCache.addHash_result c (preHash id salt)
  refine ⟨key, fun h => ?_⟩
  cases hres : (c.addHash (preHash id salt)).1
  · rfl
  · exact absurd (key.mp hres) (by tauto)

theorem C1_Add_true_iff_unseen_witness :
    (1 : Int) ≤ (ReplayCache.mk 2 {7} {0x03000000}).capacity
      ∧ (ReplayCache.Add (some ⟨2, {7}, {0x03000000}⟩) [1] [2]).1 = false
      ∧ (ReplayCache.Add (some ⟨2, {7}, {0x03000000}⟩) [1] [3]).1 = true :=
  ⟨by decide,
   (C1_Add_true_iff_unseen ⟨2, {7}, {0x03000000}⟩ (by decide) [1] [2]).2
     (Or.inr (by decide)),
   (C1_Add_true_iff_unseen ⟨2, {7}, {0x03000000}⟩ (by decide) [1] [3]).1.mpr
     ⟨by decide, by decide⟩⟩

/-- C3: for a capacity `C` with `1 ≤ C ≤ MaxCapacity`, the first `Add(id, salt)` on the
cache of `NewReplayCache(C)` returns true, and each of any number `n ≥ 1` of immediately
following `Add` calls with the same `(id, salt)` returns false. -/
theorem C3_idempotent_rejection (C : Int) (h1 : 1 ≤ C) (h2 : C ≤ MaxCapacity)
    (id salt : List Byte) :
    ∃ c0, NewReplayCache C = Except.ok c0
      ∧ (ReplayCache.Add (some c0) id salt).1 = true
      ∧ ∀ n : Nat, 1 ≤ n → ∀ j : Nat, 1 ≤ j → j ≤ n →
          (ReplayCache.Add (ReplayCache.AddSeq (some c0) (List.replicate j (id, salt)))
            id salt).1 = false := by
  have hne : (ReplayCache.mk C ∅ ∅).capacity ≠ 0 := by
    show C ≠ 0
    omega
  refine ⟨⟨C, ∅, ∅⟩, NewReplayCache_ok C h2, ?_, ?_⟩
  · rw [ReplayCache.Add_enabled _ hne, ReplayCache.addHash_result]
    simp
  · intro n _ j hj _
    obtain ⟨k, rfl⟩ : ∃ k, j = k + 1 := ⟨j - 1, by omega⟩
    rw [ReplayCache.AddSeq_enabled _ hne, List.map_replicate, List.replicate_succ,
      ReplayCache.addHashes]
    have hmem := ReplayCache.addHash_mem_active ⟨C, ∅, ∅⟩ (callHash (id, salt))
    rw [ReplayCache.addHashes_replicate_of_mem _ _ hmem k]
    have hne2 : ((ReplayCache.mk C ∅ ∅).addHash (callHash (id, salt))).2.capacity ≠ 0 := by
      rw [ReplayCache.addHash_capacity]
      exact hne
    rw [ReplayCache.Add_enabled _ hne2]
    have : preHash id salt = callHash (id, salt) := rfl
    rw [this, ReplayCache.addHash_of_mem _ _ hmem]

theorem C3_idempotent_rejection_witness :
    (1 : Int) ≤ 2 ∧ (2 : Int) ≤ MaxCapacity
      ∧ ∃ c0, NewReplayCache 2 = Except.ok c0
        ∧ (ReplayCache.Add (some c0) [1] [2]).1 = true
        ∧ ∀ n : Nat, 1 ≤ n → ∀ j : Nat, 1 ≤ j → j ≤ n →
            (ReplayCache.Add (ReplayCache.AddSeq (some c0) (List.replicate j ([1], [2])))
              [1] [2]).1 = false :=
  ⟨by decide, by decide, C3_idempotent_rejection 2 (by decide) (by decide) [1] [2]⟩

/-- C4: the cache of `NewReplayCache(0)`, the zero value of `ReplayCache`, a nil
`ReplayCache` receiver and a nil `SaltPool` receiver are fail-open: after every
sequence of earlier `Add` calls the state is the one before them, and every `Add`
returns true and leaves the state as it is. -/
theorem C4_disabled_fail_open :
    NewReplayCache 0 = Except.ok ReplayCache.zero
      ∧ (∀ (calls : List (List Byte × List Byte)) (id salt : List Byte),
          ReplayCache.AddSeq (some ReplayCache.zero) calls = some ReplayCache.zero
            ∧ ReplayCache.Add (ReplayCache.AddSeq (some ReplayCache.zero) calls) id salt
                = (true, some ReplayCache.zero))
      ∧ (∀ (calls : List (List Byte × List Byte)) (id salt : List Byte),
          ReplayCache.AddSeq none calls = none
            ∧ ReplayCache.Add (ReplayCache.AddSeq none calls) id salt = (true, none))
      ∧ (∀ (calls : List (Salt × Int)) (salt : Salt) (nowEpoch : Int),
          SaltPool.AddSeq none calls = none
            ∧ SaltPool.Add (SaltPool.AddSeq none calls) salt nowEpoch = (true, none)) := by
  refine ⟨rfl, fun calls id salt => ?_, fun calls id salt => ?_, fun calls salt now => ?_⟩
  · rw [ReplayCache.AddSeq_disabled _ rfl]
    exact ⟨rfl, ReplayCache.Add_disabled _ rfl id salt⟩
  · rw [ReplayCache.AddSeq_nil]
    exact ⟨rfl, rfl⟩
  · rw [SaltPool.poolAddSeq_nil]
    exact ⟨rfl, rfl⟩

/-- C5: `NewReplayCache(capacity)` panics exactly when `capacity > MaxCapacity`, and
`MaxCapacity` is 20000; for every capacity at or below 20000 it returns a cache with
that capacity, an empty active set and an empty archive. -/
theorem C5_capacity_ceiling (capacity : Int) :
    MaxCapacity = 20000
      ∧ ((∃ msg, NewReplayCache capacity = Except.error msg) ↔ capacity > MaxCapacity)
      ∧ (capacity ≤ 20000 → NewReplayCache capacity = Except.ok ⟨capacity, ∅, ∅⟩) := by
  refine ⟨rfl, ⟨?_, ?_⟩, fun h => NewReplayCache_ok capacity h⟩
  · rintro ⟨msg, hmsg⟩
    by_contra hle
    rw [NewReplayCache_ok capacity (not_lt.mp hle)] at hmsg
    cases hmsg
  · intro hgt
    exact ⟨_, by unfold NewReplayCache; rw [if_pos hgt]⟩

/-- C10: for a capacity `C` with `0 ≤ C ≤ MaxCapacity`, in every state reached from
`NewReplayCache(C)` by a sequence of `Add` calls, the active set holds at most `C`
fingerprints. -/
theorem C10_active_size_invariant (C : Int) (h0 : 0 ≤ C) (h1 : C ≤ MaxCapacity)
    (calls : List (List Byte × List Byte)) :
    ∃ c0 c, NewReplayCache C = Except.ok c0
      ∧ ReplayCache.AddSeq (some c0) calls = some c
      ∧ (c.active.card : Int) ≤ C := by
  by_cases hC : C = 0
  · subst hC
    exact ⟨⟨0, ∅, ∅⟩, ⟨0, ∅, ∅⟩, NewReplayCache_ok 0 h1,
      ReplayCache.AddSeq_disabled _ rfl calls, by simp⟩
  · have hne : (ReplayCache.mk C ∅ ∅).capacity ≠ 0 := hC
    refine ⟨⟨C, ∅, ∅⟩, _, NewReplayCache_ok C h1, ReplayCache.AddSeq_enabled _ hne calls, ?_⟩
    have hcap : 1 ≤ (ReplayCache.mk C ∅ ∅).capacity := by
      show 1 ≤ C
      omega
    exact ReplayCache.addHashes_card_le ⟨C, ∅, ∅⟩ _ hcap (by simpa using h0)

theorem C10_active_size_invariant_witness :
    (0 : Int) ≤ 1 ∧ (1 : Int) ≤ MaxCapacity
      ∧ ∃ c0 c, NewReplayCache 1 = Except.ok c0
        ∧ ReplayCache.AddSeq (some c0) [([1], [2]), ([3], [4])] = some c
        ∧ (c.active.card : Int) ≤ 1 :=
  ⟨by decide, by decide,
    C10_active_size_invariant 1 (by decide) (by decide) [([1], [2]), ([3], [4])]⟩

/-- C2: for a capacity `C` with `1 ≤ C ≤ MaxCapacity` and every state reached from
`NewReplayCache(C)` by `Add` calls (`pre`): after `Add(id, salt)` and then at most `C`
further `Add` calls with arbitrary arguments (`mid`), the next `Add(id, salt)` returns
false. -/
theorem C2_minimum_remembered_window (C : Int) (h1 : 1 ≤ C) (h2 : C ≤ MaxCapacity)
    (pre : List (List Byte × List Byte)) (id salt : List Byte)
    (mid : List (List Byte × List Byte)) (hmid : (mid.length : Int) ≤ C) :
    ∃ c0, NewReplayCache C = Except.ok c0
      ∧ (ReplayCache.Add (ReplayCache.AddSeq (some c0) (pre ++ (id, salt) :: mid))
          id salt).1 = false := by
  have hne : (ReplayCache.mk C ∅ ∅).capacity ≠ 0 := by
    show C ≠ 0
    omega
  refine ⟨⟨C, ∅, ∅⟩, NewReplayCache_ok C h2, ?_⟩
  rw [ReplayCache.AddSeq_enabled _ hne, List.map_append, List.map_cons,
    ReplayCache.addHashes_append, ReplayCache.addHashes]
  have hcap : ((ReplayCache.mk C ∅ ∅).addHashes (pre.map callHash)).capacity = C :=
    ReplayCache.addHashes_capacity _ _
  rw [ReplayCache.Add_enabled]
  · have := ReplayCache.addHash_remembered
      ((ReplayCache.mk C ∅ ∅).addHashes (pre.map callHash)) (callHash (id, salt))
      (mid.map callHash) (by rw [hcap, List.length_map]; exact hmid)
    exact this
  · rw [ReplayCache.addHashes_capacity, ReplayCache.addHash_capacity, hcap]
    omega

theorem C2_minimum_remembered_window_witness :
    (1 : Int) ≤ 2 ∧ (2 : Int) ≤ MaxCapacity
      ∧ ((([([5], [6]), ([7], [8])] : List (List Byte × List Byte)).length : Int) ≤ 2)
      ∧ ∃ c0, NewReplayCache 2 = Except.ok c0
        ∧ (ReplayCache.Add (ReplayCache.AddSeq (some c0)
            ([([9], [9])] ++ ([1], [2]) :: [([5], [6]), ([7], [8])])) [1] [2]).1 = false :=
  ⟨by decide, by decide, by decide,
    C2_minimum_remembered_window 2 (by decide) (by decide) [([9], [9])] [1] [2]
      [([5], [6]), ([7], [8])] (by decide)⟩

/-- C8: for a capacity `C` with `1 ≤ C ≤ MaxCapacity` and every state reached from
`NewReplayCache(C)` by `Add` calls (`pre`): after `Add(id, salt)`, if `2 * C` further
`Add` calls are made (`mid`) that each return true and each have a fingerprint other
than that of `(id, salt)`, the next `Add(id, salt)` returns true. -/
theorem C8_maximum_remembered_window (C : Int) (h1 : 1 ≤ C) (h2 : C ≤ MaxCapacity)
    (pre : List (List Byte × List Byte)) (id salt : List Byte)
    (mid : List (List Byte × List Byte)) (hlen : (mid.length : Int) = 2 * C)
    (hdiff : ∀ call ∈ mid, preHash call.1 call.2 ≠ preHash id salt)
    (htrue : ∀ r ∈ ReplayCache.AddResults
        (ReplayCache.AddSeq (some ⟨C, ∅, ∅⟩) (pre ++ [(id, salt)])) mid, r = true) :
    NewReplayCache C = Except.ok ⟨C, ∅, ∅⟩
      ∧ (ReplayCache.Add (ReplayCache.AddSeq (some ⟨C, ∅, ∅⟩) (pre ++ (id, salt) :: mid))
          id salt).1 = true := by
  have hne : (ReplayCache.mk C ∅ ∅).capacity ≠ 0 := by
    show C ≠ 0
    omega
  refine ⟨NewReplayCache_ok C h2, ?_⟩
  have hcap : ((ReplayCache.mk C ∅ ∅).addHashes (pre.map callHash)).capacity = C :=
    ReplayCache.addHashes_capacity _ _
  have hle : ((((ReplayCache.mk C ∅ ∅).addHashes (pre.map callHash)).active.card : Nat) : Int)
      ≤ ((ReplayCache.mk C ∅ ∅).addHashes (pre.map callHash)).capacity := by
    rw [hcap]
    exact ReplayCache.addHashes_card_le ⟨C, ∅, ∅⟩ _ h1 (by simpa using le_trans zero_le_one h1)
  rw [ReplayCache.AddSeq_enabled _ hne, List.map_append, List.map_cons, List.map_nil,
    ReplayCache.addHashes_append, ReplayCache.addHashes, ReplayCache.addHashes,
    ReplayCache.AddResults_enabled] at htrue
  · rw [ReplayCache.AddSeq_enabled _ hne, List.map_append, List.map_cons,
      ReplayCache.addHashes_append, ReplayCache.addHashes, ReplayCache.Add_enabled]
    · exact ReplayCache.addHash_forgotten _ (callHash (id, salt)) (mid.map callHash)
        (by rw [hcap]; exact h1) hle (by rw [hcap, List.length_map]; exact hlen)
        (by
          intro x hx
          obtain ⟨call, hcall, rfl⟩ := List.mem_map.mp hx
          exact hdiff call hcall)
        htrue
    · rw [ReplayCache.addHashes_capacity, ReplayCache.addHash_capacity, hcap]
      omega
  · rw [ReplayCache.addHash_capacity, hcap]
    omega

theorem C8_maximum_remembered_window_witness :
    (1 : Int) ≤ 1 ∧ (1 : Int) ≤ MaxCapacity
      ∧ NewReplayCache 1 = Except.ok ⟨1, ∅, ∅⟩
      ∧ (ReplayCache.Add (ReplayCache.AddSeq (some ⟨1, ∅, ∅⟩)
          ([([9], [9])] ++ ([1], []) :: [([2], []), ([3], [])])) [1] []).1 = true :=
  ⟨by decide, by decide,
    C8_maximum_remembered_window 1 (by decide) (by decide) [([9], [9])] [1] []
      [([2], []), ([3], [])] (by decide) (by decide) (by decide)⟩

/-- C9, as stated, fails at capacity 1 with the pairs `a`, `b`, `c` of fingerprints
`0x01000000`, `0x02000000`, `0x03000000`: in the one sequence `Add a, Add b, Add a,
Add c, Add a` the third call returns false as claimed, and the last call returns
false too, where the claim says true: the third call has put the fingerprint of `a`
back in the active set. -/
theorem C9_one_sequence_counterexample :
    NewReplayCache 1 = Except.ok ⟨1, ∅, ∅⟩
      ∧ ([([1], []), ([2], []), ([3], [])].map callHash).Nodup
      ∧ (ReplayCache.Add (ReplayCache.AddSeq (some ⟨1, ∅, ∅⟩) [([1], []), ([2], [])])
          [1] []).1 = false
      ∧ (ReplayCache.Add (ReplayCache.AddSeq (some ⟨1, ∅, ∅⟩)
          [([1], []), ([2], []), ([1], []), ([3], [])]) [1] []).1 = false :=
  ⟨rfl, by decide, by decide, by decide⟩

/-- C9, amended: for a capacity `C` with `1 ≤ C ≤ MaxCapacity` and `3 * C` pairs with
pairwise distinct fingerprints (`g1`, `g2`, `g3`, of `C` pairs each), from
`NewReplayCache(C)`: after `Add` of `g1` and then of `g2`, `Add` of a pair `p` of `g1`
returns false and puts the fingerprint of `p` back in the active set (the state after it
has the fingerprint of `p` alone in the active set and the fingerprints of `g2` as the
archive); after `Add` of `g1`, `g2` and `g3` with no `Add` of `p` in between, `Add` of `p`
returns true; and in the one sequence `g1`, `g2`, `p`, `g3` the later `Add` of `p` returns
false. -/
theorem C9_generational_eviction (C : Int) (h1 : 1 ≤ C) (h2 : C ≤ MaxCapacity)
    (g1 g2 g3 : List (List Byte × List Byte))
    (hl1 : (g1.length : Int) = C) (hl2 : (g2.length : Int) = C) (hl3 : (g3.length : Int) = C)
    (hnd : ((g1 ++ g2 ++ g3).map callHash).Nodup)
    (p : List Byte × List Byte) (hp : p ∈ g1) :
    NewReplayCache C = Except.ok ⟨C, ∅, ∅⟩
      ∧ (ReplayCache.Add (ReplayCache.AddSeq (some ⟨C, ∅, ∅⟩) (g1 ++ g2)) p.1 p.2).1 = false
      ∧ (ReplayCache.Add (ReplayCache.AddSeq (some ⟨C, ∅, ∅⟩) (g1 ++ g2)) p.1 p.2).2
          = some ⟨C, {preHash p.1 p.2}, (g2.map callHash).toFinset⟩
      ∧ (∃ c1, (ReplayCache.Add (ReplayCache.AddSeq (some ⟨C, ∅, ∅⟩) (g1 ++ g2)) p.1 p.2).2
            = some c1 ∧ preHash p.1 p.2 ∈ c1.active)
      ∧ (ReplayCache.Add (ReplayCache.AddSeq (some ⟨C, ∅, ∅⟩) (g1 ++ g2 ++ g3)) p.1 p.2).1
          = true
      ∧ (ReplayCache.Add (ReplayCache.AddSeq (some ⟨C, ∅, ∅⟩) (g1 ++ g2 ++ p :: g3))
          p.1 p.2).1 = false := by
  have hne : (ReplayCache.mk C ∅ ∅).capacity ≠ 0 := by
    show C ≠ 0
    omega
  have hC0 : C ≠ 0 := by omega
  simp only [List.map_append] at hnd
  have hx : ((g1.map callHash).length : Int) = C := by rw [List.length_map]; exact hl1
  have hy : ((g2.map callHash).length : Int) = C := by rw [List.length_map]; exact hl2
  have hz : ((g3.map callHash).length : Int) = C := by rw [List.length_map]; exact hl3
  obtain ⟨hnd12, _, hdis3⟩ := List.nodup_append.mp hnd
  obtain ⟨_, hndy, hdis2⟩ := List.nodup_append.mp hnd12
  have hp1 : callHash p ∈ g1.map callHash := List.mem_map_of_mem _ hp
  have hp2 : callHash p ∉ g2.map callHash := fun hmem => hdis2 hp1 hmem
  have hp3 : callHash p ∉ g3.map callHash :=
    fun hmem => hdis3 (List.mem_append_left _ hp1) hmem
  have s2 := ReplayCache.addHashes_two_generations C h1 _ _ hx hy hnd12
  have s3 := ReplayCache.addHashes_three_generations C h1 _ _ _ hx hy hz hnd
  have hpre : preHash p.1 p.2 = callHash p := rfl
  have hstate : (ReplayCache.Add (ReplayCache.AddSeq (some ⟨C, ∅, ∅⟩) (g1 ++ g2)) p.1 p.2).2
      = some ⟨C, {preHash p.1 p.2}, (g2.map callHash).toFinset⟩ := by
    rw [ReplayCache.AddSeq_enabled _ hne, List.map_append, s2,
      ReplayCache.Add_enabled _ (by exact hC0), hpre]
    show some ((ReplayCache.mk C (g2.map callHash).toFinset
      (g1.map callHash).toFinset).addHash (callHash p)).2 = _
    rw [ReplayCache.addHash_rotate _ _ (fun hmem => hp2 (List.mem_toFinset.mp hmem))
      (by simpa [List.toFinset_card_of_nodup hndy] using hy)]
  refine ⟨NewReplayCache_ok C h2, ?_, hstate, ⟨_, hstate, Finset.mem_singleton_self _⟩,
    ?_, ?_⟩
  · rw [ReplayCache.AddSeq_enabled _ hne, List.map_append, s2,
      ReplayCache.Add_enabled _ (by exact hC0), hpre]
    cases hres : ((ReplayCache.mk C (g2.map callHash).toFinset
        (g1.map callHash).toFinset).addHash (callHash p)).1
    · rfl
    · have := ((ReplayCache.addHash_result _ _).mp hres).2
      exact absurd (List.mem_toFinset.mpr hp1) this
  · rw [ReplayCache.AddSeq_enabled _ hne, List.map_append, List.map_append, s3,
      ReplayCache.Add_enabled _ (by exact hC0), hpre, ReplayCache.addHash_result]
    exact ⟨fun hmem => hp3 (List.mem_toFinset.mp hmem),
      fun hmem => hp2 (List.mem_toFinset.mp hmem)⟩
  · rw [ReplayCache.AddSeq_enabled _ hne, List.map_append, List.map_cons,
      ReplayCache.addHashes_append, ReplayCache.addHashes, ReplayCache.Add_enabled, hpre]
    · exact ReplayCache.addHash_remembered _ (callHash p) (g3.map callHash)
        (by rw [ReplayCache.addHashes_capacity]; exact hz.le)
    · rw [ReplayCache.addHashes_capacity, ReplayCache.addHash_capacity,
        ReplayCache.addHashes_capacity]
      exact hC0

theorem C9_generational_eviction_witness :
    (1 : Int) ≤ 2 ∧ (2 : Int) ≤ MaxCapacity
      ∧ (([([1], []), ([2], []), ([3], []), ([4], []), ([5], []), ([6], [])].map
          callHash).Nodup)
      ∧ NewReplayCache 2 = Except.ok ⟨2, ∅, ∅⟩
      ∧ (ReplayCache.Add (ReplayCache.AddSeq (some ⟨2, ∅, ∅⟩)
          ([([1], []), ([2], [])] ++ [([3], []), ([4], [])])) [2] []).1 = false
      ∧ (ReplayCache.Add (ReplayCache.AddSeq (some ⟨2, ∅, ∅⟩)
          ([([1], []), ([2], [])] ++ [([3], []), ([4], [])])) [2] []).2
          = some ⟨2, {preHash [2] []}, ([([3], []), ([4], [])].map callHash).toFinset⟩
      ∧ (∃ c1, (ReplayCache.Add (ReplayCache.AddSeq (some ⟨2, ∅, ∅⟩)
            ([([1], []), ([2], [])] ++ [([3], []), ([4], [])])) [2] []).2 = some c1
          ∧ preHash [2] [] ∈ c1.active)
      ∧ (ReplayCache.Add (ReplayCache.AddSeq (some ⟨2, ∅, ∅⟩)
          ([([1], []), ([2], [])] ++ [([3], []), ([4], [])] ++ [([5], []), ([6], [])]))
          [2] []).1 = true
      ∧ (ReplayCache.Add (ReplayCache.AddSeq (some ⟨2, ∅, ∅⟩)
          ([([1], []), ([2], [])] ++ [([3], []), ([4], [])]
            ++ ([2], []) :: [([5], []), ([6], [])])) [2] []).1 = false :=
  ⟨by decide, by decide, by decide,
    C9_generational_eviction 2 (by decide) (by decide)
      [([1], []), ([2], [])] [([3], []), ([4], [])] [([5], []), ([6], [])]
      (by decide) (by decide) (by decide) (by decide) ([2], []) (by decide)⟩

/-- C6, as stated, fails for the history `Add(s)` at 0, `Add(s)` at 20, `Add(s)` at 40
with `s` the salt of 32 zero bytes: the readings are non-decreasing and the call at 20
is an earlier `Add` of the same salt with `40 - 20 ≤ 30`, yet the call at 40 returns
true. The call at 20 returned false and did not renew the entry recorded at 0, which
the call at 40 deletes. -/
theorem C6_unrecorded_call_counterexample :
    List.Chain' (· ≤ ·)
        (([(constSalt 0, 0), (constSalt 0, 20)] ++ [(constSalt 0, (40 : Int))]).map Prod.snd)
      ∧ (constSalt 0, (20 : Int)) ∈ [(constSalt 0, (0 : Int)), (constSalt 0, 20)]
      ∧ (40 : Int) - 20 ≤ 30
      ∧ (SaltPool.Add (SaltPool.AddSeq NewSaltPool [(constSalt 0, 0)]) (constSalt 0) 20).1
          = false
      ∧ (SaltPool.Add (SaltPool.AddSeq NewSaltPool [(constSalt 0, 0), (constSalt 0, 20)])
          (constSalt 0) 40).1 = true :=
  ⟨by simp, by decide, by decide, by decide, by decide⟩

/-- C6, amended: for every sequence of `SaltPool.Add` calls on a pool from `NewSaltPool`
with non-decreasing clock readings, no two of which differ by `2 ^ 63` or more (no
`int64` difference overflows), a call `Add(salt)` at time `t` returns false if and only
if some earlier call of the sequence was an `Add` of that salt that returned true, at a
time `t1` with `t - t1 ≤ 30`; otherwise it returns true. -/
theorem C6_window_since_recorded (pre : List (Salt × Int)) (salt : Salt) (t : Int)
    (hmono : List.Chain' (· ≤ ·) ((pre ++ [(salt, t)]).map Prod.snd))
    (hfit : ∀ a ∈ (pre ++ [(salt, t)]).map Prod.snd, ∀ b ∈ (pre ++ [(salt, t)]).map Prod.snd,
      a - b < 9223372036854775808) :
    ((SaltPool.Add (SaltPool.AddSeq NewSaltPool pre) salt t).1 = false
        ↔ ∃ pre1 t1 pre2, pre = pre1 ++ (salt, t1) :: pre2
            ∧ (SaltPool.Add (SaltPool.AddSeq NewSaltPool pre1) salt t1).1 = true
            ∧ t - t1 ≤ 30)
      ∧ ((SaltPool.Add (SaltPool.AddSeq NewSaltPool pre) salt t).1 = true
        ↔ ¬ ∃ pre1 t1 pre2, pre = pre1 ++ (salt, t1) :: pre2
            ∧ (SaltPool.Add (SaltPool.AddSeq NewSaltPool pre1) salt t1).1 = true
            ∧ t - t1 ≤ 30) := by
  have hnew : NewSaltPool = some SaltPool.emptyPool := rfl
  have hlast : (salt, t) ∈ pre ++ [(salt, t)] := List.mem_append_right _ (by simp)
  have key : (SaltPool.Add (SaltPool.AddSeq NewSaltPool pre) salt t).1 = false
      ↔ ∃ pre1 t1 pre2, pre = pre1 ++ (salt, t1) :: pre2
          ∧ (SaltPool.Add (SaltPool.AddSeq NewSaltPool pre1) salt t1).1 = true
          ∧ t - t1 ≤ 30 := by
    rw [hnew, SaltPool.poolAddSeq_some, SaltPool.Add_some]
    show (_ = false) ↔ _
    rw [SaltPool.addPool_false_iff]
    constructor
    · rintro ⟨e, he, hage⟩
      rcases SaltPool.addPools_origin _ salt e pre he with h0 | ⟨pre1, pre2, hsplit, hres⟩
      · cases h0
      · have hmem : (salt, e) ∈ pre ++ [(salt, t)] := by
          rw [hsplit]
          exact List.mem_append_left _ (List.mem_append_right _ (List.mem_cons_self _ _))
        have hw := readings_wrap _ hfit (salt, t) (salt, e) hlast hmem
        rw [hw] at hage
        refine ⟨pre1, e, pre2, hsplit, ?_, hage⟩
        rw [SaltPool.poolAddSeq_some, SaltPool.Add_some]
        exact hres
    · rintro ⟨pre1, t1, pre2, hsplit, hres, hage⟩
      rw [SaltPool.poolAddSeq_some, SaltPool.Add_some] at hres
      have hmem : (salt, t1) ∈ pre ++ [(salt, t)] := by
        rw [hsplit]
        exact List.mem_append_left _ (List.mem_append_right _ (List.mem_cons_self _ _))
      refine ⟨t1, ?_, by rw [readings_wrap _ hfit (salt, t) (salt, t1) hlast hmem]; exact hage⟩
      rw [hsplit, SaltPool.addPools_append, SaltPool.addPools]
      refine SaltPool.addPools_keeps _ salt t1 pre2 (SaltPool.addPool_records _ salt t1 hres) ?_
      intro call hcall
      have hcmem : call ∈ pre := by
        rw [hsplit]
        exact List.mem_append_right _ (List.mem_cons_of_mem _ hcall)
      have hle := readings_le_last pre salt t hmono call hcmem
      have hw := readings_wrap _ hfit call (salt, t1) (List.mem_append_left _ hcmem) hmem
      simp only at hw
      rw [hw]
      omega
  refine ⟨key, ?_⟩
  rw [← key]
  cases (SaltPool.Add (SaltPool.AddSeq NewSaltPool pre) salt t).1 <;> simp

theorem C6_window_since_recorded_witness :
    List.Chain' (· ≤ ·)
        (([(constSalt 0, 0), (constSalt 1, 10)] ++ [(constSalt 0, (30 : Int))]).map Prod.snd)
      ∧ (∀ a ∈ ([(constSalt 0, 0), (constSalt 1, 10)] ++ [(constSalt 0, (30 : Int))]).map
            Prod.snd,
          ∀ b ∈ ([(constSalt 0, 0), (constSalt 1, 10)] ++ [(constSalt 0, (30 : Int))]).map
            Prod.snd, a - b < 9223372036854775808)
      ∧ (SaltPool.Add (SaltPool.AddSeq NewSaltPool [(constSalt 0, 0), (constSalt 1, 10)])
          (constSalt 0) 30).1 = false :=
  ⟨by simp, by decide,
    (C6_window_since_recorded [(constSalt 0, 0), (constSalt 1, 10)] (constSalt 0) 30
      (by simp) (by decide)).1.mpr ⟨[], 0, [(constSalt 1, 10)], rfl, by decide, by decide⟩⟩

/-- C7: for every sequence of `SaltPool.Add` calls with non-decreasing clock readings,
no two of which differ by `2 ^ 63` or more (no `int64` difference overflows), on a pool
from `NewSaltPool`, if `Add(salt)` at time `t` returns true, then the next `Add` of that
salt, made at time `t1` after any number of `Add` calls for other salts, returns false
if `t1 - t ≤ 30` (an age of exactly 30 included) and true if `t1 - t > 30`. -/
theorem C7_salt_pool_expiry (pre mid : List (Salt × Int)) (salt : Salt) (t t1 : Int)
    (hmono : List.Chain' (· ≤ ·) ((pre ++ (salt, t) :: mid ++ [(salt, t1)]).map Prod.snd))
    (hfit : ∀ a ∈ (pre ++ (salt, t) :: mid ++ [(salt, t1)]).map Prod.snd,
      ∀ b ∈ (pre ++ (salt, t) :: mid ++ [(salt, t1)]).map Prod.snd,
        a - b < 9223372036854775808)
    (hfirst : (SaltPool.Add (SaltPool.AddSeq NewSaltPool pre) salt t).1 = true)
    (hother : ∀ call ∈ mid, call.1 ≠ salt) :
    (t1 - t ≤ 30 →
        (SaltPool.Add (SaltPool.AddSeq NewSaltPool (pre ++ (salt, t) :: mid)) salt t1).1
          = false)
      ∧ (t1 - t > 30 →
        (SaltPool.Add (SaltPool.AddSeq NewSaltPool (pre ++ (salt, t) :: mid)) salt t1).1
          = true) := by
  have hnew : NewSaltPool = some SaltPool.emptyPool := rfl
  rw [hnew, SaltPool.poolAddSeq_some, SaltPool.Add_some] at hfirst
  rw [hnew, SaltPool.poolAddSeq_some, SaltPool.Add_some, SaltPool.addPools_append,
    SaltPool.addPools]
  have hrec := SaltPool.addPool_records _ salt t hfirst
  have happ : pre ++ (salt, t) :: mid ++ [(salt, t1)]
      = (pre ++ (salt, t) :: mid) ++ [(salt, t1)] := by simp
  have hle : ∀ call ∈ mid, call.2 ≤ t1 := by
    intro call hcall
    rw [happ] at hmono
    exact readings_le_last _ salt t1 hmono call
      (List.mem_append_right _ (List.mem_cons_of_mem _ hcall))
  have hmt : (salt, t) ∈ pre ++ (salt, t) :: mid ++ [(salt, t1)] := by simp
  have hmt1 : (salt, t1) ∈ pre ++ (salt, t) :: mid ++ [(salt, t1)] := by simp
  have hmmid : ∀ call ∈ mid, call ∈ pre ++ (salt, t) :: mid ++ [(salt, t1)] := by
    intro call hcall
    simp only [List.mem_append, List.mem_cons, List.mem_singleton]
    exact Or.inl (Or.inr (Or.inr hcall))
  have hw1 := readings_wrap _ hfit (salt, t1) (salt, t) hmt1 hmt
  simp only at hw1
  constructor
  · intro hage
    show (_ = false)
    rw [SaltPool.addPool_false_iff]
    refine ⟨t, SaltPool.addPools_keeps _ salt t mid hrec ?_, by rw [hw1]; exact hage⟩
    intro call hcall
    have := hle call hcall
    have hw := readings_wrap _ hfit call (salt, t) (hmmid call hcall) hmt
    simp only at hw
    rw [hw]
    omega
  · intro hage
    show (_ = true)
    have hst := SaltPool.addPools_other _ salt t mid hother (Or.inl hrec)
    cases hres : (((((SaltPool.emptyPool.addPools pre).addPool salt t).2).addPools mid).addPool
        salt t1).1
    · obtain ⟨e, he, hage2⟩ := (SaltPool.addPool_false_iff _ _ _).mp hres
      rcases hst with h | h
      · rw [h] at he
        cases he
        rw [hw1] at hage2
        omega
      · rw [h] at he
        cases he
    · rfl

theorem C7_salt_pool_expiry_witness :
    List.Chain' (· ≤ ·)
        (([(constSalt 1, (3 : Int))] ++ (constSalt 0, 5) :: [(constSalt 1, 34), (constSalt 2, 35)]
          ++ [(constSalt 0, 35)]).map Prod.snd)
      ∧ (∀ a ∈ ([(constSalt 1, (3 : Int))] ++ (constSalt 0, 5)
              :: [(constSalt 1, 34), (constSalt 2, 35)] ++ [(constSalt 0, 35)]).map Prod.snd,
          ∀ b ∈ ([(constSalt 1, (3 : Int))] ++ (constSalt 0, 5)
              :: [(constSalt 1, 34), (constSalt 2, 35)] ++ [(constSalt 0, 35)]).map Prod.snd,
            a - b < 9223372036854775808)
      ∧ (SaltPool.Add (SaltPool.AddSeq NewSaltPool [(constSalt 1, 3)]) (constSalt 0) 5).1 = true
      ∧ (35 : Int) - 5 ≤ 30
      ∧ (SaltPool.Add (SaltPool.AddSeq NewSaltPool
          ([(constSalt 1, 3)] ++ (constSalt 0, 5) :: [(constSalt 1, 34), (constSalt 2, 35)]))
          (constSalt 0) 35).1 = false :=
  ⟨by simp, by decide, by decide, by decide,
    (C7_salt_pool_expiry [(constSalt 1, 3)] [(constSalt 1, 34), (constSalt 2, 35)]
      (constSalt 0) 5 35 (by simp) (by decide) (by decide) (by decide)).1 (by decide)⟩

/-- C11: for a capacity `C` with `0 ≤ C ≤ MaxCapacity`, in every state reached from
`NewReplayCache(C)` by `Add` calls the archive is empty or holds exactly `C`
fingerprints, and the active set and the archive together hold at most `2 * C`. -/
theorem C11_two_generation_bound (C : Int) (h0 : 0 ≤ C) (h1 : C ≤ MaxCapacity)
    (calls : List (List Byte × List Byte)) :
    ∃ c0 c, NewReplayCache C = Except.ok c0
      ∧ ReplayCache.AddSeq (some c0) calls = some c
      ∧ (c.archive = ∅ ∨ (c.archive.card : Int) = C)
      ∧ (c.active.card : Int) + (c.archive.card : Int) ≤ 2 * C := by
  by_cases hC : C = 0
  · subst hC
    exact ⟨⟨0, ∅, ∅⟩, ⟨0, ∅, ∅⟩, NewReplayCache_ok 0 h1,
      ReplayCache.AddSeq_disabled _ rfl calls, Or.inl rfl, by simp⟩
  · have hne : (ReplayCache.mk C ∅ ∅).capacity ≠ 0 := hC
    have hcap : 1 ≤ (ReplayCache.mk C ∅ ∅).capacity := by
      show 1 ≤ C
      omega
    have hact := ReplayCache.addHashes_card_le ⟨C, ∅, ∅⟩ (calls.map callHash) hcap
      (by simpa using h0)
    have harch := ReplayCache.addHashes_archive ⟨C, ∅, ∅⟩ (calls.map callHash) (Or.inl rfl)
    refine ⟨⟨C, ∅, ∅⟩, _, NewReplayCache_ok C h1, ReplayCache.AddSeq_enabled _ hne calls,
      harch, ?_⟩
    change ((((ReplayCache.mk C ∅ ∅).addHashes (calls.map callHash)).active.card : Nat) : Int)
      ≤ C at hact
    rcases harch with he | hfull
    · rw [he, Finset.card_empty]
      push_cast
      omega
    · change ((((ReplayCache.mk C ∅ ∅).addHashes (calls.map callHash)).archive.card : Nat) : Int)
        = C at hfull
      omega

theorem C11_two_generation_bound_witness :
    (0 : Int) ≤ 1 ∧ (1 : Int) ≤ MaxCapacity
      ∧ ∃ c0 c, NewReplayCache 1 = Except.ok c0
        ∧ ReplayCache.AddSeq (some c0) [([1], [2]), ([3], [4])] = some c
        ∧ (c.archive = ∅ ∨ (c.archive.card : Int) = 1)
        ∧ (c.active.card : Int) + (c.archive.card : Int) ≤ 2 * 1 :=
  ⟨by decide, by decide,
    C11_two_generation_bound 1 (by decide) (by decide) [([1], [2]), ([3], [4])]⟩

/-- C15: on an enabled cache (capacity at least 1) with `h = preHash(id, salt)`: if `h`
is in the active set, `Add` leaves the state unchanged; otherwise, if the active set
holds `capacity` fingerprints, the new archive is the old active set and the new active
set is `{h}`; otherwise the new active set is the old one plus `h` and the archive is
unchanged. After every `Add`, `h` is in the active set, also when `Add` returns false
because `h` was in the archive only. -/
theorem C15_Add_state_transition (c : ReplayCache) (hcap : 1 ≤ c.capacity)
    (id salt : List Byte) :
    (preHash id salt ∈ c.active → (ReplayCache.Add (some c) id salt).2 = some c)
      ∧ (preHash id salt ∉ c.active → (c.active.card : Int) = c.capacity →
          (ReplayCache.Add (some c) id salt).2
            = some ⟨c.capacity, {preHash id salt}, c.active⟩)
      ∧ (preHash id salt ∉ c.active → (c.active.card : Int) ≠ c.capacity →
          (ReplayCache.Add (some c) id salt).2
            = some ⟨c.capacity, insert (preHash id salt) c.active, c.archive⟩)
      ∧ (∃ c1, (ReplayCache.Add (some c) id salt).2 = some c1 ∧ preHash id salt ∈ c1.active)
      ∧ (preHash id salt ∉ c.active → preHash id salt ∈ c.archive →
          (ReplayCache.Add (some c) id salt).1 = false) := by
  have hne : c.capacity ≠ 0 := by omega
  rw [ReplayCache.Add_enabled c hne]
  refine ⟨fun h => ?_, fun h hfull => ?_, fun h hfull => ?_, ?_, fun h harch => ?_⟩
  · simp [ReplayCache.addHash, h]
  · simp [ReplayCache.addHash, h, hfull]
  · simp [ReplayCache.addHash, h, hfull]
  · exact ⟨_, rfl, ReplayCache.addHash_mem_active c _⟩
  · cases hres : (c.addHash (preHash id salt)).1
    · rfl
    · exact absurd harch ((ReplayCache.addHash_result c _).mp hres).2

theorem C15_Add_state_transition_witness :
    (1 : Int) ≤ (ReplayCache.mk 1 {7} {0x03000000}).capacity
      ∧ (ReplayCache.Add (some ⟨1, {7}, {0x03000000}⟩) [1] [2])
          = (false, some ⟨1, {0x03000000}, {7}⟩) := by
  have h := C15_Add_state_transition ⟨1, {7}, {0x03000000}⟩ (by decide) [1] [2]
  refine ⟨by decide, Prod.ext (h.2.2.2.2 (by decide) (by decide)) ?_⟩
  exact h.2.1 (by decide) (by decide)

/-- C13: for every sequence of `SaltPool.Add` calls with non-decreasing clock readings,
no two of which differ by `2 ^ 63` or more (no `int64` difference overflows), on a pool
from `NewSaltPool`, right after a call made at time `now` every entry `salt → epoch` of
the pool has `0 ≤ now - epoch ≤ 30`. -/
theorem C13_sweep_invariant (pre : List (Salt × Int)) (salt : Salt) (now : Int)
    (hmono : List.Chain' (· ≤ ·) ((pre ++ [(salt, now)]).map Prod.snd))
    (hfit : ∀ a ∈ (pre ++ [(salt, now)]).map Prod.snd,
      ∀ b ∈ (pre ++ [(salt, now)]).map Prod.snd, a - b < 9223372036854775808) :
    ∃ p, SaltPool.AddSeq NewSaltPool (pre ++ [(salt, now)]) = some p
      ∧ ∀ s e, p.pool s = some e → 0 ≤ now - e ∧ now - e ≤ 30 := by
  have hnew : NewSaltPool = some SaltPool.emptyPool := rfl
  refine ⟨_, by rw [hnew, SaltPool.poolAddSeq_some], ?_⟩
  intro s e he
  have hlast : (salt, now) ∈ pre ++ [(salt, now)] := List.mem_append_right _ (by simp)
  have hmem : (s, e) ∈ pre ++ [(salt, now)] := by
    rcases SaltPool.addPools_origin _ s e _ he with h0 | ⟨pre1, pre2, hsplit, _⟩
    · cases h0
    · rw [hsplit]
      exact List.mem_append_right _ (List.mem_cons_self _ _)
  constructor
  · rcases List.mem_append.mp hmem with hin | hlast1
    · have := readings_le_last pre salt now hmono (s, e) hin
      simp only at this
      omega
    · simp only [List.mem_singleton, Prod.mk.injEq] at hlast1
      omega
  · rw [SaltPool.addPools_append] at he
    have hage := SaltPool.addPool_age _ s e salt now he
    have hw := readings_wrap _ hfit (salt, now) (s, e) hlast hmem
    simp only at hw
    rw [hw] at hage
    exact hage

theorem C13_sweep_invariant_witness :
    List.Chain' (· ≤ ·)
        (([(constSalt 0, 0), (constSalt 1, 10)] ++ [(constSalt 2, (35 : Int))]).map Prod.snd)
      ∧ (∀ a ∈ ([(constSalt 0, 0), (constSalt 1, 10)] ++ [(constSalt 2, (35 : Int))]).map
            Prod.snd,
          ∀ b ∈ ([(constSalt 0, 0), (constSalt 1, 10)] ++ [(constSalt 2, (35 : Int))]).map
            Prod.snd, a - b < 9223372036854775808)
      ∧ ∃ p, SaltPool.AddSeq NewSaltPool
            ([(constSalt 0, 0), (constSalt 1, 10)] ++ [(constSalt 2, 35)]) = some p
          ∧ ∀ s e, p.pool s = some e → 0 ≤ (35 : Int) - e ∧ (35 : Int) - e ≤ 30 :=
  ⟨by simp, by decide,
    C13_sweep_invariant [(constSalt 0, 0), (constSalt 1, 10)] (constSalt 2) 35 (by simp)
      (by decide)⟩

/-- C16: `SaltPool.Add` is its reference algorithm `SaltPool.AddRef`. For every pool,
clock reading `now` and salt such that no `int64` difference `now - epoch` of an entry
overflows, with the swept pool being the pool without exactly the entries of
`now - epoch > 30`: if the salt is a key of the swept pool, `Add` returns false and the
pool after the call is the swept pool; otherwise `Add` returns true and the pool after
the call is the swept pool with the salt mapped to `now`. -/
theorem C16_Add_refines_reference (p : SaltPool) (salt : Salt) (now : Int)
    (hfit : ∀ s e, p.pool s = some e →
      -9223372036854775808 ≤ now - e ∧ now - e < 9223372036854775808) :
    SaltPool.Add (some p) salt now
        = ((SaltPool.AddRef p.pool salt now).1, some ⟨(SaltPool.AddRef p.pool salt now).2⟩)
      ∧ (∀ s e, SaltPool.sweepRef p.pool now s = some e
          ↔ p.pool s = some e ∧ ¬ now - e > 30)
      ∧ ((∃ e, SaltPool.sweepRef p.pool now salt = some e) →
          SaltPool.Add (some p) salt now = (false, some ⟨SaltPool.sweepRef p.pool now⟩))
      ∧ (SaltPool.sweepRef p.pool now salt = none →
          SaltPool.Add (some p) salt now
            = (true, some ⟨fun s => if s = salt then some now
                                    else SaltPool.sweepRef p.pool now s⟩)) := by
  have hsw := SaltPool.sweepRef_eq_clean p.pool now hfit
  refine ⟨?_, ?_, ?_, ?_⟩
  · unfold SaltPool.Add SaltPool.AddRef
    rw [hsw]
    by_cases h : (SaltPool.clean p.pool now salt).isSome = true
    · simp [h]
    · simp only [h, if_false, Bool.false_eq_true]
      congr 3
      funext s
      by_cases hs : s = salt
      · subst hs
        simp
      · simp [hs, Function.update_noteq hs]
  · intro s e
    rw [hsw, SaltPool.clean_eq_some]
    constructor
    · rintro ⟨h1, h2⟩
      rw [wrapInt64_of_fits _ (hfit s e h1).1 (hfit s e h1).2] at h2
      exact ⟨h1, by omega⟩
    · rintro ⟨h1, h2⟩
      rw [wrapInt64_of_fits _ (hfit s e h1).1 (hfit s e h1).2]
      exact ⟨h1, by omega⟩
  · rintro ⟨e, he⟩
    rw [hsw] at he ⊢
    simp [SaltPool.Add, he]
  · intro hnone
    rw [hsw] at hnone ⊢
    simp [SaltPool.Add, hnone]

theorem C16_Add_refines_reference_witness :
    (∀ s e, (SaltPool.mk (fun s => if s = constSalt 0 then some 0 else none)).pool s = some e →
        -9223372036854775808 ≤ (31 : Int) - e ∧ (31 : Int) - e < 9223372036854775808)
      ∧ SaltPool.Add (some ⟨fun s => if s = constSalt 0 then some 0 else none⟩)
          (constSalt 0) 31
        = (true, some ⟨fun s => if s = constSalt 0 then some 31
            else SaltPool.sweepRef (fun s => if s = constSalt 0 then some 0 else none) 31 s⟩)
      ∧ SaltPool.sweepRef (fun s => if s = constSalt 0 then some 0 else none) 31
          (constSalt 0) = none := by
  have hfit : ∀ s e,
      (SaltPool.mk (fun s => if s = constSalt 0 then some 0 else none)).pool s = some e →
        -9223372036854775808 ≤ (31 : Int) - e ∧ (31 : Int) - e < 9223372036854775808 := by
    intro s e h
    by_cases hs : s = constSalt 0
    · simp only [hs, if_true, Option.some.injEq] at h
      omega
    · simp only [hs, if_false] at h
      cases h
  have hnone : SaltPool.sweepRef (fun s => if s = constSalt 0 then some 0 else none) 31
      (constSalt 0) = none := by decide
  exact ⟨hfit,
    (C16_Add_refines_reference ⟨fun s => if s = constSalt 0 then some 0 else none⟩
      (constSalt 0) 31 hfit).2.2.2 hnone, hnone⟩

/-- C18: for a capacity `C` with `1 ≤ C ≤ MaxCapacity` and every sequence of `Add` calls
on the cache of `NewReplayCache(C)` whose fingerprints take at most `C` distinct
values, `Add` returns true exactly at the first occurrence of each fingerprint and
false at every later one, and the number of true results is the number of distinct
fingerprints of the sequence. -/
theorem C18_exactly_once_admission (C : Int) (h1 : 1 ≤ C) (h2 : C ≤ MaxCapacity)
    (calls : List (List Byte × List Byte))
    (hdist : ((((calls.map callHash).toFinset).card : Nat) : Int) ≤ C) :
    NewReplayCache C = Except.ok ⟨C, ∅, ∅⟩
      ∧ (∀ pre call post, calls = pre ++ call :: post →
          (ReplayCache.Add (ReplayCache.AddSeq (some ⟨C, ∅, ∅⟩) pre) call.1 call.2).1
            = decide (callHash call ∉ pre.map callHash))
      ∧ (ReplayCache.AddResults (some ⟨C, ∅, ∅⟩) calls).count true
          = ((calls.map callHash).toFinset).card := by
  have h := ReplayCache.once_of_no_rotation C (by omega) calls (by
    intro n hn
    omega)
  exact ⟨NewReplayCache_ok C h2, h.2.1, h.2.2⟩

theorem C18_exactly_once_admission_witness :
    (1 : Int) ≤ 2 ∧ (2 : Int) ≤ MaxCapacity
      ∧ ((((([([1], []), ([2], []), ([1], []), ([2], [])] :
          List (List Byte × List Byte)).map callHash).toFinset).card : Nat) : Int) ≤ 2
      ∧ (ReplayCache.AddResults (some ⟨2, ∅, ∅⟩)
          [([1], []), ([2], []), ([1], []), ([2], [])]).count true = 2 :=
  ⟨by decide, by decide, by decide,
    (C18_exactly_once_admission 2 (by decide) (by decide)
      [([1], []), ([2], []), ([1], []), ([2], [])] (by decide)).2.2.trans (by decide)⟩

/-- C19: for every capacity `c < 0`, `NewReplayCache(c)` succeeds, and in the cache it
returns the number of fingerprints in the active set is never the capacity: after every
sequence of `Add` calls the archive is empty and the active set holds exactly the
distinct fingerprints of the calls, `Add` returns true exactly at the first occurrence
of each fingerprint, and the true results are as many as the distinct fingerprints. -/
theorem C19_negative_capacity (c : Int) (hneg : c < 0)
    (calls : List (List Byte × List Byte)) :
    NewReplayCache c = Except.ok ⟨c, ∅, ∅⟩
      ∧ ReplayCache.AddSeq (some ⟨c, ∅, ∅⟩) calls
          = some ⟨c, (calls.map callHash).toFinset, ∅⟩
      ∧ ((((calls.map callHash).toFinset).card : Nat) : Int) ≠ c
      ∧ (∀ pre call post, calls = pre ++ call :: post →
          (ReplayCache.Add (ReplayCache.AddSeq (some ⟨c, ∅, ∅⟩) pre) call.1 call.2).1
            = decide (callHash call ∉ pre.map callHash))
      ∧ (ReplayCache.AddResults (some ⟨c, ∅, ∅⟩) calls).count true
          = ((calls.map callHash).toFinset).card := by
  have h := ReplayCache.once_of_no_rotation c (by omega) calls (by
    intro n _
    omega)
  have hmax : c ≤ MaxCapacity := by
    unfold MaxCapacity
    omega
  exact ⟨NewReplayCache_ok c hmax, h.1, by omega, h.2.1, h.2.2⟩

theorem C19_negative_capacity_witness :
    (-1 : Int) < 0
      ∧ NewReplayCache (-1) = Except.ok ⟨-1, ∅, ∅⟩
      ∧ ReplayCache.AddSeq (some ⟨-1, ∅, ∅⟩) [([1], []), ([2], []), ([1], [])]
          = some ⟨-1, ([([1], []), ([2], []), ([1], [])].map callHash).toFinset, ∅⟩
      ∧ (ReplayCache.AddResults (some ⟨-1, ∅, ∅⟩)
          [([1], []), ([2], []), ([1], [])]).count true = 2 :=
  ⟨by decide, (C19_negative_capacity (-1) (by decide) []).1,
    (C19_negative_capacity (-1) (by decide) [([1], []), ([2], []), ([1], [])]).2.1,
    (C19_negative_capacity (-1) (by decide)
      [([1], []), ([2], []), ([1], [])]).2.2.2.2.trans (by decide)⟩

/-- C17: for every id and salt, byte `j` (`j` from 0 to 3, byte 0 the most significant)
of the 32-bit result of `preHash(id, salt)` is the exclusive-OR of all bytes `id[i]` with
`i mod 4 = j` and all bytes `salt[i]` with `i mod 4 = j`, each index counted in its own
sequence; the result is below `2 ^ 32`, and `preHash` of the empty id and the empty salt
is 0. -/
theorem C17_preHash_xor_fold (id salt : List Byte) :
    (∀ j : Fin 4, bigEndianByte (preHash id salt) j
        = xorOfResidue id j.val ^^^ xorOfResidue salt j.val)
      ∧ preHash id salt < 2 ^ 32
      ∧ preHash [] [] = 0 := by
  refine ⟨fun j => ?_, preHash_lt id salt, by decide⟩
  rw [preHash_byte, xorFold_eq_residue, xorFold_eq_residue]

/-- C12: for every id and salt, replacing one byte of the id, or one byte of the salt,
by another byte value changes `preHash(id, salt)`. -/
theorem C12_byte_sensitivity (id salt : List Byte) :
    (∀ (k : Nat) (hk : k < id.length) (b : Byte), b ≠ id.get ⟨k, hk⟩ →
        preHash (id.set k b) salt ≠ preHash id salt)
      ∧ (∀ (k : Nat) (hk : k < salt.length) (b : Byte), b ≠ salt.get ⟨k, hk⟩ →
        preHash id (salt.set k b) ≠ preHash id salt) := by
  constructor
  · intro k hk b hb heq
    have hbyte := congrArg (fun x => bigEndianByte x ⟨k % 4, Nat.mod_lt k (by norm_num)⟩) heq
    simp only [preHash_byte] at hbyte
    rw [xorFold_set 0 id (k % 4) k hk b, Nat.zero_add, if_pos rfl, Nat.xor_left_inj] at hbyte
    have hzero := Nat.xor_right_inj.mp (hbyte.trans (Nat.xor_zero _).symm)
    exact hb (Fin.ext (Nat.xor_eq_zero.mp hzero).symm)
  · intro k hk b hb heq
    have hbyte := congrArg (fun x => bigEndianByte x ⟨k % 4, Nat.mod_lt k (by norm_num)⟩) heq
    simp only [preHash_byte] at hbyte
    rw [xorFold_set 0 salt (k % 4) k hk b, Nat.zero_add, if_pos rfl, Nat.xor_right_inj] at hbyte
    have hzero := Nat.xor_right_inj.mp (hbyte.trans (Nat.xor_zero _).symm)
    exact hb (Fin.ext (Nat.xor_eq_zero.mp hzero).symm)

theorem C12_byte_sensitivity_witness :
    preHash (([1, 2, 3, 4, 5] : List Byte).set 4 9) [6] ≠ preHash [1, 2, 3, 4, 5] [6]
      ∧ preHash [1, 2] (([6, 7] : List Byte).set 1 8) ≠ preHash [1, 2] [6, 7] :=
  ⟨(C12_byte_sensitivity [1, 2, 3, 4, 5] [6]).1 4 (by decide) 9 (by decide),
    (C12_byte_sensitivity [1, 2] [6, 7]).2 1 (by decide) 8 (by decide)⟩

/-- C20: for every id and salt, `preHash(id, salt)` is the exclusive-OR of
`preHash(id, empty)` and `preHash(empty, salt)`. So whether two ids collide under one
salt does not depend on the salt, and an id with the bytes of the salt has the
fingerprint 0. -/
theorem C20_xor_separable (id salt : List Byte) :
    preHash id salt = preHash id [] ^^^ preHash [] salt
      ∧ (∀ id2 salt2 : List Byte,
          preHash id salt = preHash id2 salt ↔ preHash id salt2 = preHash id2 salt2)
      ∧ preHash salt salt = 0 := by
  refine ⟨preHash_xor id salt, fun id2 salt2 => ?_, ?_⟩
  · rw [preHash_xor id salt, preHash_xor id2 salt, preHash_xor id salt2,
      preHash_xor id2 salt2, Nat.xor_left_inj, Nat.xor_left_inj]
  · rw [preHash_xor salt salt, preHash_left, preHash_right, Nat.xor_self]

end service
